import Mathlib

/-!
# Verification of the bid-document extraction pipeline

Shallow embedding of the core algorithms of the camera-sensor-scraper
repository's document-to-structured-data pipeline:

* `splitPdfBySize` — size-bounded, binary-search page chunking
  (`S3OpenAIProcessor.split_pdf_by_size` in `bid_doc_parser.py`);
* `splitTextSafely` — sentence-aware character segmentation
  (`S3OpenAIProcessor._split_text_safely`);
* `mergeRecords` / `mergeOpportunityLists` — deterministic key-based merge
  (`S3OpenAIProcessor._merge_opportunity_lists`);
* `mapAiOpportunityToRow` and its normalizers (`process_bid_docs.py`);
* `mergeOpportunitiesWithAI` — model-delegated merge with fallback
  (`process_bid_docs.py`).

Pages of a PDF are opaque tokens (`Nat`); serialization of a page range to
bytes is an arbitrary size function `sz : List Nat → Nat`, so theorems hold
for every serializer.  Python strings are `String`/`List Char`; dynamically
typed JSON values are the inductive `PyVal`; Python exceptions are `Option`.
-/

namespace BidDocs

/-! ## Page-range slicing

`slice l s e` models the Python list slice `l[s:e]` (for `s ≤ e`). -/

def slice (l : List α) (s e : Nat) : List α := (l.drop s).take (e - s)

theorem slice_length (l : List α) (s e : Nat) :
    (slice l s e).length = min (e - s) (l.length - s) := by
  simp [slice]

theorem slice_append_drop (l : List α) (s e : Nat) (h : s ≤ e) :
    slice l s e ++ l.drop e = l.drop s := by
  have he : l.drop e = (l.drop s).drop (e - s) := by
    rw [List.drop_drop]
    congr 1
    omega
  rw [slice, he]
  exact List.take_append_drop _ _

/-! ## Size-based PDF chunking (`split_pdf_by_size`)

The Python loop body serializes a candidate page range `pages[start:end]`;
if its byte size exceeds the bound and it spans more than one page, a binary
search (`low = 1`, `high = end - start`) finds the largest page count whose
serialization fits.  `chunkSearch` is that inner `while low <= high` loop;
`low`, `high`, `best` are modelled as `Int` exactly as Python ints (so the
loop exit `high = mid - 1 = 0 - 1 = -1` behaves as in Python). -/

def chunkSearch (sz : List Nat → Nat) (pages : List Nat) (maxSize startPage : Nat) :
    Int → Int → Int → Int
  | low, high, best =>
    if low ≤ high then
      let mid := (low + high) / 2
      if sz (slice pages startPage (startPage + mid.toNat)) ≤ maxSize then
        chunkSearch sz pages maxSize startPage (mid + 1) high mid
      else
        chunkSearch sz pages maxSize startPage low (mid - 1) best
    else best
termination_by low high _ => (high + 1 - low).toNat
decreasing_by
  · omega
  · omega

theorem chunkSearch_pos (sz : List Nat → Nat) (pages : List Nat)
    (maxSize startPage : Nat) :
    ∀ low high best : Int, 1 ≤ low → 1 ≤ best →
      1 ≤ chunkSearch sz pages maxSize startPage low high best := by
  intro low high best
  induction low, high, best using chunkSearch.induct sz pages maxSize startPage with
  | case1 low high best hlh mid hsz ih =>
    intro h1 hb
    rw [chunkSearch, if_pos hlh, if_pos hsz]
    exact ih (by omega) (by omega)
  | case2 low high best hlh mid hsz ih =>
    intro h1 hb
    rw [chunkSearch, if_pos hlh, if_neg hsz]
    exact ih h1 hb
  | case3 low high best hlh =>
    intro h1 hb
    rw [chunkSearch, if_neg hlh]
    exact hb

theorem chunkSearch_fits (sz : List Nat → Nat) (pages : List Nat)
    (maxSize startPage : Nat) :
    ∀ low high best : Int,
      (best = 1 ∨ sz (slice pages startPage (startPage + best.toNat)) ≤ maxSize) →
      (chunkSearch sz pages maxSize startPage low high best = 1 ∨
        sz (slice pages startPage
          (startPage + (chunkSearch sz pages maxSize startPage low high best).toNat))
          ≤ maxSize) := by
  intro low high best
  induction low, high, best using chunkSearch.induct sz pages maxSize startPage with
  | case1 low high best hlh mid hsz ih =>
    intro _
    rw [chunkSearch, if_pos hlh, if_pos hsz]
    exact ih (Or.inr hsz)
  | case2 low high best hlh mid hsz ih =>
    intro hb
    rw [chunkSearch, if_pos hlh, if_neg hsz]
    exact ih hb
  | case3 low high best hlh =>
    intro hb
    rw [chunkSearch, if_neg hlh]
    exact hb

/-- The end page chosen by one iteration of the `while start_page < total_pages`
loop of `split_pdf_by_size`: the estimated end, shrunk by the binary search
when the candidate chunk is oversized and spans more than one page. -/
def chunkEnd (sz : List Nat → Nat) (pages : List Nat) (maxSize est start : Nat) : Nat :=
  if maxSize < sz (slice pages start (min (start + est) pages.length)) ∧
      1 < min (start + est) pages.length - start then
    start + (chunkSearch sz pages maxSize start 1
      ((min (start + est) pages.length : Int) - start) 1).toNat
  else min (start + est) pages.length

theorem chunkEnd_gt (sz : List Nat → Nat) (pages : List Nat) (maxSize est start : Nat)
    (hest : 1 ≤ est) (h : start < pages.length) :
    start < chunkEnd sz pages maxSize est start := by
  have h1 : 1 ≤ chunkSearch sz pages maxSize start 1
      ((min (start + est) pages.length : Int) - start) 1 :=
    chunkSearch_pos sz pages maxSize start 1 _ 1 le_rfl le_rfl
  unfold chunkEnd
  split
  · omega
  · omega

theorem chunkEnd_fits (sz : List Nat → Nat) (pages : List Nat) (maxSize est start : Nat)
    (hest : 1 ≤ est) (h : start < pages.length) :
    sz (slice pages start (chunkEnd sz pages maxSize est start)) ≤ maxSize ∨
      chunkEnd sz pages maxSize est start = start + 1 := by
  unfold chunkEnd
  split
  case isTrue hbig =>
    have hfits := chunkSearch_fits sz pages maxSize start 1
      ((min (start + est) pages.length : Int) - start) 1 (Or.inl rfl)
    rcases hfits with h1 | hsz
    · right
      rw [h1]
      rfl
    · exact Or.inl hsz
  case isFalse hng =>
    rcases not_and_or.mp hng with hsz | hspan
    · exact Or.inl (le_of_not_lt hsz)
    · right
      omega

/-- The outer `while start_page < total_pages` loop of `split_pdf_by_size`.
`est` is `estimated_pages_per_chunk`, which the source guarantees to be at
least 1 (`max(1, ...)` / the divide-by-zero guard). -/
def splitFrom (sz : List Nat → Nat) (pages : List Nat) (maxSize est : Nat)
    (hest : 1 ≤ est) (start : Nat) : List (List Nat) :=
  if h : start < pages.length then
    slice pages start (chunkEnd sz pages maxSize est start) ::
      splitFrom sz pages maxSize est hest (chunkEnd sz pages maxSize est start)
  else []
termination_by pages.length - start
decreasing_by
  have := chunkEnd_gt sz pages maxSize est start hest h
  omega

/-- `estimated_pages_per_chunk`: Python computes
`max(1, int((total_pages * max_size) / total_size)) if total_size else 1`.
(The Python expression uses float division before `int()`; the theorems
below hold for every estimate that is at least 1, so the rounding mode is
immaterial and we use exact natural division.) -/
def estPages (pages : List Nat) (maxSize fileSize : Nat) : Nat :=
  if fileSize = 0 then 1 else max 1 (pages.length * maxSize / fileSize)

theorem estPages_pos (pages : List Nat) (maxSize fileSize : Nat) :
    1 ≤ estPages pages maxSize fileSize := by
  unfold estPages; split <;> omega

/-- `S3OpenAIProcessor.split_pdf_by_size(file_content, max_size_mb)`.
`pages` is the page sequence of the parsed PDF, `fileSize` the byte length of
`file_content` (used only for the pages-per-chunk estimate), and `sz` the
serialized byte size of a page range (`PdfWriter.write`).  Returns the chunks
as page ranges; the byte size of a returned chunk `c` is `sz c`. -/
def splitPdfBySize (sz : List Nat → Nat) (pages : List Nat)
    (fileSize maxSizeMb : Nat) : List (List Nat) :=
  let maxSize := maxSizeMb * 1024 * 1024
  splitFrom sz pages maxSize (estPages pages maxSize fileSize)
    (estPages_pos pages maxSize fileSize) 0

theorem splitFrom_chunk_bound (sz : List Nat → Nat) (pages : List Nat)
    (maxSize est : Nat) (hest : 1 ≤ est) :
    ∀ start : Nat, ∀ c ∈ splitFrom sz pages maxSize est hest start,
      sz c ≤ maxSize ∨ c.length = 1 := by
  have main : ∀ n start, pages.length - start ≤ n →
      ∀ c ∈ splitFrom sz pages maxSize est hest start,
        sz c ≤ maxSize ∨ c.length = 1 := by
    intro n
    induction n with
    | zero =>
      intro start hst c hc
      rw [splitFrom.eq_def, dif_neg (by omega)] at hc
      exact absurd hc (List.not_mem_nil c)
    | succ n ih =>
      intro start hst c hc
      by_cases h : start < pages.length
      · rw [splitFrom.eq_def, dif_pos h] at hc
        rcases List.mem_cons.mp hc with hhd | htl
        · subst hhd
          rcases chunkEnd_fits sz pages maxSize est start hest h with hsz | hone
          · exact Or.inl hsz
          · right
            rw [hone, slice_length]
            omega
        · have hgt := chunkEnd_gt sz pages maxSize est start hest h
          exact ih (chunkEnd sz pages maxSize est start) (by omega) c htl
      · rw [splitFrom.eq_def, dif_neg h] at hc
        exact absurd hc (List.not_mem_nil c)
  intro start
  exact main (pages.length - start) start le_rfl

theorem splitFrom_join (sz : List Nat → Nat) (pages : List Nat)
    (maxSize est : Nat) (hest : 1 ≤ est) :
    ∀ start : Nat, (splitFrom sz pages maxSize est hest start).flatten = pages.drop start := by
  have main : ∀ n start, pages.length - start ≤ n →
      (splitFrom sz pages maxSize est hest start).flatten = pages.drop start := by
    intro n
    induction n with
    | zero =>
      intro start hst
      rw [splitFrom.eq_def, dif_neg (by omega), List.flatten_nil,
        Eq.comm, List.drop_eq_nil_iff]
      omega
    | succ n ih =>
      intro start hst
      by_cases h : start < pages.length
      · rw [splitFrom.eq_def, dif_pos h, List.flatten_cons]
        have hgt := chunkEnd_gt sz pages maxSize est start hest h
        rw [ih (chunkEnd sz pages maxSize est start) (by omega)]
        exact slice_append_drop pages start _ (le_of_lt hgt)
      · rw [splitFrom.eq_def, dif_neg h, List.flatten_nil, Eq.comm,
          List.drop_eq_nil_iff]
        omega
  intro start
  exact main (pages.length - start) start le_rfl

theorem splitFrom_chunks_are_slices (sz : List Nat → Nat) (pages : List Nat)
    (maxSize est : Nat) (hest : 1 ≤ est) :
    ∀ start : Nat, ∀ c ∈ splitFrom sz pages maxSize est hest start,
      ∃ s e, s ≤ e ∧ c = slice pages s e := by
  have main : ∀ n start, pages.length - start ≤ n →
      ∀ c ∈ splitFrom sz pages maxSize est hest start,
        ∃ s e, s ≤ e ∧ c = slice pages s e := by
    intro n
    induction n with
    | zero =>
      intro start hst c hc
      rw [splitFrom.eq_def, dif_neg (by omega)] at hc
      exact absurd hc (List.not_mem_nil c)
    | succ n ih =>
      intro start hst c hc
      by_cases h : start < pages.length
      · rw [splitFrom.eq_def, dif_pos h] at hc
        have hgt := chunkEnd_gt sz pages maxSize est start hest h
        rcases List.mem_cons.mp hc with hhd | htl
        · exact ⟨start, chunkEnd sz pages maxSize est start, le_of_lt hgt, hhd⟩
        · exact ih (chunkEnd sz pages maxSize est start) (by omega) c htl
      · rw [splitFrom.eq_def, dif_neg h] at hc
        exact absurd hc (List.not_mem_nil c)
  intro start
  exact main (pages.length - start) start le_rfl

/-- C1: Every chunk returned by `split_pdf_by_size` has serialized byte size
at most the bound `max_size_mb * 1024 * 1024`, except possibly a chunk that
consists of a single page (the degenerate case in which one page alone
exceeds the bound). -/
theorem C1_chunk_size_bound (sz : List Nat → Nat) (pages : List Nat)
    (fileSize maxSizeMb : Nat) (c : List Nat)
    (hc : c ∈ splitPdfBySize sz pages fileSize maxSizeMb) :
    sz c ≤ maxSizeMb * 1024 * 1024 ∨ c.length = 1 :=
  splitFrom_chunk_bound sz pages (maxSizeMb * 1024 * 1024) _ _ 0 c hc

/-- C2: The chunks returned by `split_pdf_by_size` partition the page
sequence: concatenating them in output order reconstructs the document's
page sequence exactly, and every chunk is a contiguous page range. -/
theorem C2_chunks_partition (sz : List Nat → Nat) (pages : List Nat)
    (fileSize maxSizeMb : Nat) :
    (splitPdfBySize sz pages fileSize maxSizeMb).flatten = pages ∧
      ∀ c ∈ splitPdfBySize sz pages fileSize maxSizeMb,
        ∃ s e, s ≤ e ∧ c = slice pages s e := by
  constructor
  · have := splitFrom_join sz pages (maxSizeMb * 1024 * 1024)
      (estPages pages (maxSizeMb * 1024 * 1024) fileSize)
      (estPages_pos pages (maxSizeMb * 1024 * 1024) fileSize) 0
    simpa [splitPdfBySize] using this
  · intro c hc
    exact splitFrom_chunks_are_slices sz pages (maxSizeMb * 1024 * 1024) _ _ 0 c hc

/-- Witness for C1: on a concrete 4-page document with serializer
`sz l = 3 * l.length`, the returned chunk `[0,1,2,3]` is in the output and
satisfies the size bound. -/
theorem C1_chunk_size_bound_witness :
    [0, 1, 2, 3] ∈ splitPdfBySize (fun l => 3 * l.length) [0, 1, 2, 3] 12 1 ∧
      ((fun (l : List Nat) => 3 * l.length) [0, 1, 2, 3] ≤ 1 * 1024 * 1024 ∨
        ([0, 1, 2, 3] : List Nat).length = 1) := by
  have hm : [0, 1, 2, 3] ∈ splitPdfBySize (fun l => 3 * l.length) [0, 1, 2, 3] 12 1 := by
    have he : splitPdfBySize (fun l => 3 * l.length) [0, 1, 2, 3] 12 1 = [[0, 1, 2, 3]] := by
      simp [splitPdfBySize, estPages]
      rw [splitFrom.eq_def]
      norm_num [chunkEnd, slice]
      rw [splitFrom.eq_def]
      norm_num
    rw [he]
    exact List.mem_singleton.mpr rfl
  exact ⟨hm, C1_chunk_size_bound (fun l => 3 * l.length) [0, 1, 2, 3] 12 1 _ hm⟩

/-- Witness for C2: concrete evaluation of the partition property. -/
theorem C2_chunks_partition_witness :
    (splitPdfBySize (fun l => 3 * l.length) [0, 1, 2, 3] 12 1).flatten = [0, 1, 2, 3] :=
  (C2_chunks_partition (fun l => 3 * l.length) [0, 1, 2, 3] 12 1).1

/-- C6 (counterexample): the claim says a zero-page document yields exactly
one empty chunk, but `split_pdf_by_size` never enters its loop when
`total_pages = 0` and returns the empty list of chunks, not `[[]]`. -/
theorem C6_counterexample :
    ¬ (splitPdfBySize (fun l => l.length) ([] : List Nat) 0 25 = [[]]) := by
  have h : splitPdfBySize (fun l => l.length) ([] : List Nat) 0 25 = [] := by
    rw [splitPdfBySize, splitFrom.eq_def]
    norm_num
  rw [h]
  simp

/-- C6 (amended): for a zero-page document, `split_pdf_by_size` yields no
chunks at all (the `while start_page < total_pages` loop body never runs). -/
theorem C6_empty_doc_no_chunks (sz : List Nat → Nat) (fileSize maxSizeMb : Nat) :
    splitPdfBySize sz ([] : List Nat) fileSize maxSizeMb = [] := by
  rw [splitPdfBySize, splitFrom.eq_def]
  norm_num


/-! ## Helper list lemmas -/

theorem getLast?_mem_of_eq_some {l : List α} {a : α} (h : l.getLast? = some a) : a ∈ l := by
  rcases List.mem_getLast?_eq_getLast h with ⟨hne, rfl⟩
  exact List.getLast_mem hne

/-! ## Sentence-aware text segmentation (`_split_text_safely`)

Text is a `List Char`.  `pyIsSpace` is Python's `\\s` on ASCII; `stripL` is
`str.strip()`.  The sentence-boundary regular expression
`(?<=\\.|\\?|!)\\s+(?=[A-Z(])` matches exactly at positions `j ≥ 1` where the
previous character is `.`, `?` or `!`, a whitespace run starts at `j`, and
the first character after the run is an uppercase ASCII letter or `(`
(the greedy `\\s+` must swallow the whole run for the lookahead to hold). -/

def pyIsSpace (c : Char) : Bool :=
  c == ' ' || c == '\t' || c == '\n' || c == '\r' || c == '\x0b' || c == '\x0c'

def stripL (l : List Char) : List Char :=
  ((l.dropWhile pyIsSpace).reverse.dropWhile pyIsSpace).reverse

theorem stripL_length_le (l : List Char) : (stripL l).length ≤ l.length := by
  unfold stripL
  rw [List.length_reverse]
  calc ((l.dropWhile pyIsSpace).reverse.dropWhile pyIsSpace).length
      ≤ (l.dropWhile pyIsSpace).reverse.length := (List.dropWhile_sublist _).length_le
    _ = (l.dropWhile pyIsSpace).length := List.length_reverse _
    _ ≤ l.length := (List.dropWhile_sublist _).length_le

/-- Tunables of `S3OpenAIProcessor` read from the environment in `__init__`
(defaults: `TEXT_SEGMENT_OVERLAP=400`, `TEXT_SPLIT_BACKTRACK_WINDOW=1200`,
`TEXT_MIN_CHARS=2000`, `MAX_SEGMENTS_PER_CHUNK=50`). -/
structure SplitCfg where
  textOverlap : Nat := 400
  textBacktrack : Nat := 1200
  textMinChars : Nat := 2000
  maxSegmentsPerChunk : Nat := 50

def wsRunLen (l : List Char) : Nat := (l.takeWhile pyIsSpace).length

/-- Is position `j` of `cand` a match start of the sentence-boundary regex? -/
def isBoundary (cand : List Char) (j : Nat) : Bool :=
  decide (1 ≤ j) &&
  (match cand[j-1]? with
   | some c => c == '.' || c == '?' || c == '!'
   | none => false) &&
  decide (1 ≤ wsRunLen (cand.drop j)) &&
  (match cand[j + wsRunLen (cand.drop j)]? with
   | some c => ('A' ≤ c && c ≤ 'Z') || c == '('
   | none => false)

/-- `boundary_re.finditer(candidate)` match starts, in ascending order. -/
def findBoundaries (cand : List Char) : List Nat :=
  (List.range cand.length).filter (isBoundary cand)

/-- `text.rfind(" ", start, stop)`: highest index of a space character in
`text[start:stop]`, as an `Option` instead of `-1`. -/
def rfindSpace (text : List Char) (start stop : Nat) : Option Nat :=
  match (slice text start stop).reverse.findIdx? (fun c => c == ' ') with
  | some k => some (start + ((slice text start stop).length - 1 - k))
  | Option.none => Option.none

/-- The cut position chosen by one iteration of the `_split_text_safely`
loop: the last sentence boundary in the backtrack window, else the last
space before the hard cutoff, else the hard cutoff itself. -/
def cutPoint (cfg : SplitCfg) (text : List Char) (minC i hardEnd : Nat) : Nat :=
  match ((findBoundaries (slice text (max (i + minC) (hardEnd - cfg.textBacktrack)) hardEnd)).map
      (fun j => j + max (i + minC) (hardEnd - cfg.textBacktrack))).getLast? with
  | some c => c
  | Option.none =>
    match rfindSpace text (max (i + minC) (hardEnd - cfg.textBacktrack)) hardEnd with
    | some w => w
    | Option.none => hardEnd

theorem findBoundaries_lt (cand : List Char) (j : Nat) (h : j ∈ findBoundaries cand) :
    j < cand.length := by
  unfold findBoundaries at h
  exact List.mem_range.mp (List.mem_filter.mp h).1

theorem rfindSpace_bounds (text : List Char) (start stop w : Nat)
    (h : rfindSpace text start stop = some w) : start ≤ w ∧ w < stop := by
  unfold rfindSpace at h
  split at h
  case h_1 k hk =>
    have hklt : k < (slice text start stop).reverse.length := by
      have := List.findIdx?_eq_some_iff_findIdx_eq.mp hk
      exact this.1
    rw [List.length_reverse] at hklt
    have hlen : (slice text start stop).length ≤ stop - start := by
      rw [slice_length]
      omega
    cases h
    omega
  case h_2 => exact absurd h (by simp)

theorem cutPoint_le (cfg : SplitCfg) (text : List Char) (minC i hardEnd : Nat) :
    cutPoint cfg text minC i hardEnd ≤ hardEnd := by
  unfold cutPoint
  split
  case h_1 c hc =>
    have hmem := getLast?_mem_of_eq_some hc
    rcases List.mem_map.mp hmem with ⟨j, hj, rfl⟩
    have hjlt := findBoundaries_lt _ j hj
    rw [slice_length] at hjlt
    omega
  case h_2 =>
    split
    case h_1 w hw => exact le_of_lt (rfindSpace_bounds text _ hardEnd w hw).2
    case h_2 => exact le_rfl

theorem cutPoint_ge (cfg : SplitCfg) (text : List Char) (minC i hardEnd : Nat) :
    min (i + minC) hardEnd ≤ cutPoint cfg text minC i hardEnd := by
  unfold cutPoint
  split
  case h_1 c hc =>
    have hmem := getLast?_mem_of_eq_some hc
    rcases List.mem_map.mp hmem with ⟨j, hj, rfl⟩
    omega
  case h_2 =>
    split
    case h_1 w hw =>
      have := (rfindSpace_bounds text _ hardEnd w hw).1
      omega
    case h_2 => omega

/-- The `while i < n and len(segments) < self.max_segments_per_chunk` loop
of `_split_text_safely`, before the tiny-tail merge.  `room` is the number
of segments that may still be emitted before the cap is reached.  In the
non-final branch, `hard_end = min(i + max_chars, n)`; the loop exit test
`hard_end >= n` is written as `n ≤ i + maxC`, which is equivalent. -/
def segLoop (cfg : SplitCfg) (text : List Char) (maxC minC ov : Nat) :
    Nat → Nat → List (List Char)
  | _, 0 => []
  | i, room + 1 =>
    if i < text.length then
      if text.length ≤ i + maxC then
        [slice text i text.length]
      else
        slice text i (cutPoint cfg text minC i (min (i + maxC) text.length)) ::
          segLoop cfg text maxC minC ov
            (cutPoint cfg text minC i (min (i + maxC) text.length) - ov) room
    else []

/-- The tiny-tail merge at the end of `_split_text_safely`: a segment
shorter than `min_chars` is folded into the preceding one, joined with
`text_separator() = "\n"` and stripped. -/
def mergeStep (minC : Nat) (acc : List (List Char)) (s : List Char) : List (List Char) :=
  match acc.getLast? with
  | some last =>
      if s.length < minC then acc.dropLast ++ [stripL (last ++ '\n' :: s)]
      else acc ++ [s]
  | Option.none => acc ++ [s]

def mergeTiny (minC : Nat) (segs : List (List Char)) : List (List Char) :=
  segs.foldl (mergeStep minC) []

/-- `max_chars = max(1000, int(max_chars))`. -/
def effMaxC (maxChars : Int) : Nat := (max 1000 maxChars).toNat

/-- `min_chars = self.text_min_chars if min_chars is None else max(0, int(min_chars))`. -/
def effMinC (cfg : SplitCfg) (minChars : Option Int) : Nat :=
  match minChars with
  | Option.none => cfg.textMinChars
  | some v => (max 0 v).toNat

/-- `overlap = self.text_overlap if overlap is None else max(0, int(overlap))`. -/
def effOv (cfg : SplitCfg) (overlap : Option Int) : Nat :=
  match overlap with
  | Option.none => cfg.textOverlap
  | some v => (max 0 v).toNat

/-- `S3OpenAIProcessor._split_text_safely(text, max_chars, min_chars, overlap)`. -/
def splitTextSafely (cfg : SplitCfg) (text : List Char) (maxChars : Int)
    (minChars overlap : Option Int) : List (List Char) :=
  if text.isEmpty then [[]]
  else
    mergeTiny (effMinC cfg minChars)
      (segLoop cfg text (effMaxC maxChars) (effMinC cfg minChars) (effOv cfg overlap)
        0 cfg.maxSegmentsPerChunk)

theorem segLoop_le_maxC (cfg : SplitCfg) (text : List Char) (maxC minC ov : Nat) :
    ∀ room i, ∀ s ∈ segLoop cfg text maxC minC ov i room, s.length ≤ maxC := by
  intro room
  induction room with
  | zero =>
    intro i s hs
    exact absurd hs (List.not_mem_nil s)
  | succ room ih =>
    intro i s hs
    rw [segLoop] at hs
    by_cases hi : i < text.length
    · rw [if_pos hi] at hs
      by_cases hfin : text.length ≤ i + maxC
      · rw [if_pos hfin] at hs
        rcases List.mem_singleton.mp hs with rfl
        rw [slice_length]
        omega
      · rw [if_neg hfin] at hs
        rcases List.mem_cons.mp hs with rfl | htl
        · have hcut := cutPoint_le cfg text minC i (min (i + maxC) text.length)
          rw [slice_length]
          omega
        · exact ih _ s htl
    · rw [if_neg hi] at hs
      exact absurd hs (List.not_mem_nil s)

theorem segLoop_dropLast_ge_minC (cfg : SplitCfg) (text : List Char) (maxC minC ov : Nat)
    (hmm : minC ≤ maxC) :
    ∀ room i, ∀ s ∈ (segLoop cfg text maxC minC ov i room).dropLast, minC ≤ s.length := by
  intro room
  induction room with
  | zero =>
    intro i s hs
    simp [segLoop] at hs
  | succ room ih =>
    intro i s hs
    rw [segLoop] at hs
    by_cases hi : i < text.length
    · rw [if_pos hi] at hs
      by_cases hfin : text.length ≤ i + maxC
      · rw [if_pos hfin] at hs
        simp at hs
      · rw [if_neg hfin] at hs
        rcases hrest : segLoop cfg text maxC minC ov
            (cutPoint cfg text minC i (min (i + maxC) text.length) - ov) room with _ | ⟨r, rs⟩
        · rw [hrest] at hs
          simp at hs
        · rw [hrest, List.dropLast_cons₂] at hs
          rcases List.mem_cons.mp hs with rfl | htl
          · have hge := cutPoint_ge cfg text minC i (min (i + maxC) text.length)
            rw [slice_length]
            omega
          · have := ih (cutPoint cfg text minC i (min (i + maxC) text.length) - ov)
            rw [hrest] at this
            exact this s htl
    · rw [if_neg hi] at hs
      simp at hs

theorem mergeFold_bound (minC maxC : Nat) :
    ∀ (rest acc : List (List Char)),
      (∀ s ∈ rest.dropLast, minC ≤ s.length) →
      (∀ m ∈ acc, m.length ≤ maxC) →
      (∀ s ∈ rest, s.length ≤ maxC) →
      ∀ m ∈ rest.foldl (mergeStep minC) acc, m.length ≤ maxC + minC := by
  intro rest
  induction rest with
  | nil =>
    intro acc _ hacc _ m hm
    have := hacc m hm
    omega
  | cons s rest ih =>
    intro acc hdrop hacc hall m hm
    rw [List.foldl_cons] at hm
    rcases hrest : rest with _ | ⟨r2, rs2⟩
    · subst hrest
      rw [List.foldl_nil] at hm
      unfold mergeStep at hm
      split at hm
      case h_1 last hlast =>
        split at hm
        case isTrue hsmall =>
          rcases List.mem_append.mp hm with hins | hnew
          · have := hacc m (List.mem_of_mem_dropLast hins)
            omega
          · rcases List.mem_singleton.mp hnew with rfl
            have h1 : last.length ≤ maxC := hacc last (getLast?_mem_of_eq_some hlast)
            have h2 := stripL_length_le (last ++ '\n' :: s)
            rw [List.length_append, List.length_cons] at h2
            omega
        case isFalse =>
          rcases List.mem_append.mp hm with hins | hnew
          · have := hacc m hins
            omega
          · rcases List.mem_singleton.mp hnew with rfl
            have := hall _ (List.mem_cons_self _ _)
            omega
      case h_2 =>
        rcases List.mem_append.mp hm with hins | hnew
        · have := hacc m hins
          omega
        · rcases List.mem_singleton.mp hnew with rfl
          have := hall _ (List.mem_cons_self _ _)
          omega
    · subst hrest
      have hsmin : minC ≤ s.length := by
        have := hdrop s
        rw [List.dropLast_cons₂] at this
        exact this (List.mem_cons_self s _)
      have hstep : mergeStep minC acc s = acc ++ [s] := by
        unfold mergeStep
        split
        · rw [if_neg (by omega)]
        · rfl
      rw [hstep] at hm
      refine ih (acc ++ [s]) ?_ ?_ ?_ m hm
      · intro u hu
        have := hdrop u
        rw [List.dropLast_cons₂] at this
        exact this (List.mem_cons_of_mem _ hu)
      · intro u hu
        rcases List.mem_append.mp hu with h1 | h2
        · exact hacc u h1
        · rcases List.mem_singleton.mp h2 with rfl
          exact hall u (List.mem_cons_self _ _)
      · intro u hu
        exact hall u (List.mem_cons_of_mem _ hu)

/-- C4 (amended): every segment returned by `_split_text_safely` has length
at most `effMaxC + effMinC` (effective clamped bounds), provided the
effective `min_chars` does not exceed the effective `max_chars`.  The
per-segment bound `maxC` itself holds for the pre-merge segmentation; the
tiny-tail merge can push only the final segment up to `maxC + minC`. -/
theorem C4_segment_bound_amended (cfg : SplitCfg) (text : List Char) (maxChars : Int)
    (minChars overlap : Option Int)
    (h : effMinC cfg minChars ≤ effMaxC maxChars) :
    ∀ s ∈ splitTextSafely cfg text maxChars minChars overlap,
      s.length ≤ effMaxC maxChars + effMinC cfg minChars := by
  intro s hs
  unfold splitTextSafely at hs
  split at hs
  · rcases List.mem_singleton.mp hs with rfl
    simp
  · unfold mergeTiny at hs
    refine mergeFold_bound (effMinC cfg minChars) (effMaxC maxChars) _ [] ?_ ?_ ?_ s hs
    · exact segLoop_dropLast_ge_minC cfg text _ _ _ h cfg.maxSegmentsPerChunk 0
    · intro m hm
      exact absurd hm (List.not_mem_nil m)
    · exact segLoop_le_maxC cfg text _ _ _ cfg.maxSegmentsPerChunk 0

/-- Witness for C4 (amended) at a concrete input. -/
theorem C4_segment_bound_amended_witness :
    (['a', 'b', 'c'] ∈ splitTextSafely {} ['a', 'b', 'c'] 1000 (some 500) (some 0)) ∧
      (['a', 'b', 'c'] : List Char).length ≤ effMaxC 1000 + effMinC {} (some 500) :=
  ⟨by decide, C4_segment_bound_amended {} ['a', 'b', 'c'] 1000 (some 500) (some 0)
    (by decide) ['a', 'b', 'c'] (by decide)⟩

/-- C4 (counterexample): with the default tunables (`text_min_chars = 2000`)
and `max_chars = 1000`, the text `'a' * 2500` (no sentence boundaries, no
spaces) is pre-split into hard-cut segments of 1000/1000/500 characters, all
shorter than `min_chars`, and the tiny-tail merge then concatenates them all
into one 2502-character segment — far above the claimed `max_chars` bound. -/
theorem dropWhile_cons_of_neg (p : α → Bool) (x : α) (xs : List α) (h : p x = false) :
    List.dropWhile p (x :: xs) = x :: xs := by
  rw [List.dropWhile_cons, h]
  rfl

theorem dropWhile_eq_self_of_head (p : α → Bool) (l : List α) (c : α)
    (hh : l.head? = some c) (hc : p c = false) : List.dropWhile p l = l := by
  cases l with
  | nil => rfl
  | cons x xs =>
    rw [List.head?_cons, Option.some_inj] at hh
    subst hh
    exact dropWhile_cons_of_neg p x xs hc

theorem splitTextSafely_merge_overflow_eval :
    (splitTextSafely {} (List.replicate 1300 'a') 1000 (some 1000) (some 0)).map
        List.length = [1301] := by
  have hne : (List.replicate 1300 'a').isEmpty = false := by
    rw [show List.replicate 1300 'a' = 'a' :: List.replicate 1299 'a' from rfl]
    rfl
  have hcut : cutPoint {} (List.replicate 1300 'a') 1000 0 1000 = 1000 := by
    unfold cutPoint
    norm_num [slice, findBoundaries, rfindSpace]
  have hseg : segLoop {} (List.replicate 1300 'a') 1000 1000 0 0 50 =
      [List.replicate 1000 'a', List.replicate 300 'a'] := by
    rw [segLoop]
    norm_num [List.length_replicate]
    rw [hcut]
    constructor
    · norm_num [slice, List.take_replicate]
    · rw [segLoop]
      norm_num [List.length_replicate, slice, List.drop_replicate, List.take_replicate]
  unfold splitTextSafely
  rw [hne]
  norm_num [effMaxC, effMinC, effOv, Int.toNat_ofNat]
  rw [show ((1000 : Int).toNat) = 1000 from rfl]
  rw [hseg]
  unfold mergeTiny
  rw [List.foldl_cons, List.foldl_cons, List.foldl_nil]
  unfold mergeStep
  norm_num [List.length_replicate, List.getLast?_nil, List.getLast?_singleton]
  rw [show stripL (List.replicate 1000 'a' ++ '\n' :: List.replicate 300 'a') =
      List.replicate 1000 'a' ++ '\n' :: List.replicate 300 'a' from ?_]
  · norm_num [List.length_replicate]
  · have ha : pyIsSpace 'a' = false := by decide
    have hgl : (List.replicate 1000 'a' ++ '\n' :: List.replicate 300 'a').getLast? =
        some 'a' := by
      rw [List.getLast?_append_of_ne_nil _ (List.cons_ne_nil _ _)]
      rw [show ('\n' :: List.replicate 300 'a') = ('\n' :: List.replicate 299 'a') ++ ['a'] from by
        rw [List.cons_append, ← List.replicate_succ' 299 'a']]
      exact List.getLast?_concat _
    unfold stripL
    have h1 : List.dropWhile pyIsSpace
        (List.replicate 1000 'a' ++ '\n' :: List.replicate 300 'a') =
        List.replicate 1000 'a' ++ '\n' :: List.replicate 300 'a' := by
      apply dropWhile_eq_self_of_head pyIsSpace _ 'a' ?_ ha
      rw [show List.replicate 1000 'a' = 'a' :: List.replicate 999 'a' from rfl]
      rfl
    rw [h1]
    have h2 : List.dropWhile pyIsSpace
        ((List.replicate 1000 'a' ++ '\n' :: List.replicate 300 'a').reverse) =
        (List.replicate 1000 'a' ++ '\n' :: List.replicate 300 'a').reverse := by
      apply dropWhile_eq_self_of_head pyIsSpace _ 'a' ?_ ha
      rw [List.head?_reverse]
      exact hgl
    rw [h2, List.reverse_reverse]

/-- C4 (counterexample): at `max_chars = 1000` (so the floor clamp is the
identity), `min_chars = 1000`, `overlap = 0` and the 1300-character text
`'a' * 1300`, `_split_text_safely` pre-splits into segments of 1000 and 300
characters, and the tiny-tail merge then returns a single segment of 1301
characters — exceeding the claimed `max_chars` bound on the final list. -/
theorem C4_counterexample :
    ∃ s ∈ splitTextSafely {} (List.replicate 1300 'a') 1000 (some 1000) (some 0),
      1000 < s.length := by
  have h := splitTextSafely_merge_overflow_eval
  rcases hres : splitTextSafely {} (List.replicate 1300 'a') 1000 (some 1000) (some 0)
    with _ | ⟨x, xs⟩
  · rw [hres] at h
    simp at h
  · rw [hres] at h
    rcases xs with _ | ⟨y, ys⟩
    · refine ⟨x, List.mem_singleton.mpr rfl, ?_⟩
      simp at h
      omega
    · simp at h

/-- C9: `_split_text_safely` clamps `max_chars` to a floor of 1000; for any
requested bound below 1000 it behaves exactly as if `max_chars` were 1000. -/
theorem C9_maxchars_floor_clamp (cfg : SplitCfg) (text : List Char) (maxChars : Int)
    (minChars overlap : Option Int) (h : maxChars < 1000) :
    splitTextSafely cfg text maxChars minChars overlap =
      splitTextSafely cfg text 1000 minChars overlap := by
  unfold splitTextSafely
  have he : effMaxC maxChars = effMaxC 1000 := by
    unfold effMaxC
    congr 1
    omega
  rw [he]

/-- Witness for C9 at a concrete input. -/
theorem C9_maxchars_floor_clamp_witness :
    splitTextSafely {} ['a', 'b'] 5 (some 0) (some 0) =
      splitTextSafely {} ['a', 'b'] 1000 (some 0) (some 0) :=
  C9_maxchars_floor_clamp {} ['a', 'b'] 5 (some 0) (some 0) (by norm_num)

/-! ## Dynamically typed JSON values

`PyVal` models the Python values flowing through the merge code: `None`,
`str`, `int`, `list` and `dict` (insertion-ordered, unique keys in real
Python).  `truthy` is Python truthiness; `notBlank v` is the source test
`val not in (None, "", [])` (note `0` and `{}` count as non-blank there).
Python exceptions are modelled as `Option` results. -/

inductive PyVal where
  | none
  | str (s : String)
  | int (n : Int)
  | list (xs : List PyVal)
  | dict (kvs : List (String × PyVal))

abbrev Dict := List (String × PyVal)

def truthy : PyVal → Bool
  | .none => false
  | .str s => !(s == "")
  | .int n => !(n == 0)
  | .list xs => !xs.isEmpty
  | .dict kvs => !kvs.isEmpty

def notBlank : PyVal → Bool
  | .none => false
  | .str s => !(s == "")
  | .list xs => !xs.isEmpty
  | .int _ => true
  | .dict _ => true

/-- `d.get(k, dflt)`: value at the first (only, in Python) occurrence of `k`,
else the default. -/
def dictGetDef (d : Dict) (k : String) (dflt : PyVal) : PyVal :=
  match d with
  | [] => dflt
  | (k2, v) :: t => if k2 == k then v else dictGetDef t k dflt

/-- `d.get(k)`: absent key and stored `None` both give `None`, as in Python. -/
def dictGet (d : Dict) (k : String) : PyVal := dictGetDef d k .none

/-- `d[k] = v`: replace the value at `k` in place, else append the new key. -/
def dictSet (d : Dict) (k : String) (v : PyVal) : Dict :=
  match d with
  | [] => [(k, v)]
  | (k2, v2) :: t => if k2 == k then (k, v) :: t else (k2, v2) :: dictSet t k v

def digitsToNat? (l : List Char) : Option Nat :=
  if l.isEmpty then Option.none
  else l.foldlM
    (fun acc c => if c.isDigit then some (acc * 10 + (c.toNat - 48)) else Option.none) 0

/-- `int(s)` on a string: optional sign and decimal digits, surrounding
whitespace ignored; anything else raises `ValueError` (`Option.none`). -/
def pyParseInt (s : String) : Option Int :=
  match stripL s.data with
  | '-' :: rest => (digitsToNat? rest).map (fun n => -(n : Int))
  | '+' :: rest => (digitsToNat? rest).map (fun n => (n : Int))
  | t => (digitsToNat? t).map (fun n => (n : Int))

/-- `int(x or 0)`: falsy values coerce to 0; ints pass through; strings are
parsed; other truthy values raise (`Option.none`). -/
def pyIntOr0 (v : PyVal) : Option Int :=
  if truthy v then
    match v with
    | .int n => some n
    | .str s => pyParseInt s
    | _ => Option.none
  else some 0

/-- `(x or "")` followed by a string method: falsy gives `""`; a truthy
non-string raises `AttributeError` (`Option.none`). -/
def strOrEmpty (v : PyVal) : Option String :=
  if truthy v then
    match v with
    | .str s => some s
    | _ => Option.none
  else some ""

/-- ASCII `str.lower()` on one character. -/
def pyCharLower (c : Char) : Char :=
  if 'A' ≤ c ∧ c ≤ 'Z' then Char.ofNat (c.toNat + 32) else c

/-- `.strip().lower()` of a string, as a character list. -/
def normKey (s : String) : List Char := (stripL s.data).map pyCharLower

/-- `key_of(o)` in `_merge_opportunity_lists`:
`f"{jc}|{jd}|{pl}"` over the stripped, lowercased key fields, with the
description truncated to 120 characters. -/
def keyOf (o : Dict) : Option String := do
  let jc ← strOrEmpty (dictGet o "job_code")
  let jd ← strOrEmpty (dictGet o "job_description")
  let pl ← strOrEmpty (dictGet o "project_location")
  some (String.mk (normKey jc ++ '|' :: ((normKey jd).take 120 ++ '|' :: normKey pl)))

/-- One step of the field-fill loop
`for field, val in o.items(): if not existing.get(field) and val not in (None, "", []): existing[field] = val`. -/
def fillStep (acc : Dict) (kv : String × PyVal) : Dict :=
  if !truthy (dictGet acc kv.1) && notBlank kv.2 then dictSet acc kv.1 kv.2 else acc

/-- The `try: ... except: pass` confidence step of the duplicate-key update:
keep the higher `match_confidence` when both values coerce to `int`,
otherwise leave the record unchanged. -/
def confAdjusted (existing o : Dict) : Dict :=
  match pyIntOr0 (dictGet existing "match_confidence"),
      pyIntOr0 (dictGet o "match_confidence") with
  | some exConf, some newConf =>
      if exConf < newConf then dictSet existing "match_confidence" (.int newConf)
      else existing
  | _, _ => existing

/-- The duplicate-key update of `_merge_opportunity_lists`: the confidence
step, then the field-fill loop over the newcomer's items. -/
def updateExisting (existing o : Dict) : Dict :=
  o.foldl fillStep (confAdjusted existing o)

def assocGet (l : List (String × β)) (k : String) : Option β :=
  match l with
  | [] => Option.none
  | (k2, v) :: t => if k2 == k then some v else assocGet t k

def assocSet (l : List (String × β)) (k : String) (v : β) : List (String × β) :=
  match l with
  | [] => [(k, v)]
  | (k2, v2) :: t => if k2 == k then (k, v) :: t else (k2, v2) :: assocSet t k v

/-- Processing of one opportunity `o` against the insertion-ordered map
`merged`; `None` is the propagated exception when `o` is not a dict or
`key_of` raises. -/
def mergeOne (acc : List (String × Dict)) (o : PyVal) : Option (List (String × Dict)) :=
  match o with
  | .dict od =>
    (keyOf od).map (fun k =>
      match assocGet acc k with
      | Option.none => assocSet acc k od
      | some existing => assocSet acc k (updateExisting existing od))
  | _ => Option.none

/-- `for o in (part or {}).get("instrumentation_opportunities", []) or []`.
A truthy non-dict part, or a truthy non-list opportunities value, leads to a
raised exception on this path (iterating a string/dict yields non-dict
elements whose `o.get` raises; an int is not iterable). -/
def partOpps (part : PyVal) : Option (List PyVal) :=
  if truthy part then
    match part with
    | .dict d =>
      match dictGetDef d "instrumentation_opportunities" (.list []) with
      | .list xs => some xs
      | v => if truthy v then Option.none else some []
    | _ => Option.none
  else some []

def mergeOppsInto (acc : List (String × Dict)) : List PyVal → Option (List (String × Dict))
  | [] => some acc
  | o :: os =>
    match mergeOne acc o with
    | some acc2 => mergeOppsInto acc2 os
    | Option.none => Option.none

def mergePartsFrom (acc : List (String × Dict)) : List PyVal → Option (List (String × Dict))
  | [] => some acc
  | p :: ps =>
    match partOpps p with
    | some opps =>
      match mergeOppsInto acc opps with
      | some acc2 => mergePartsFrom acc2 ps
      | Option.none => Option.none
    | Option.none => Option.none

/-- The `merged` map built by `_merge_opportunity_lists(parts)`, in insertion
order of first-seen keys. -/
def mergeRecords (parts : List PyVal) : Option (List (String × Dict)) :=
  mergePartsFrom [] parts

/-- `_merge_opportunity_lists(parts)`:
`{"instrumentation_opportunities": list(merged.values())}`. -/
def mergeOpportunityLists (parts : List PyVal) : Option PyVal :=
  (mergeRecords parts).map (fun acc =>
    .dict [("instrumentation_opportunities", .list (acc.map (fun p => .dict p.2)))])

/-! ## Well-typedness of opportunity records

The spec's data model: `match_confidence` is an integer in 0..100 (we only
need 0 ≤), the three merge-key fields are strings (or absent/None), other
fields are strings, None, or lists.  Real Python dicts have unique keys. -/

def keyFieldNames : List String := ["job_code", "job_description", "project_location"]

def fieldOkVal (f : String) (v : PyVal) : Bool :=
  if keyFieldNames.contains f then
    match v with
    | .none => true
    | .str _ => true
    | _ => false
  else
    match v with
    | .none => true
    | .str _ => true
    | .list _ => true
    | _ => false

def nodupKeys : Dict → Bool
  | [] => true
  | (k, _) :: t => !(t.any (fun p => p.1 == k)) && nodupKeys t

def oppOkD (d : Dict) : Bool :=
  nodupKeys d &&
  (match dictGet d "match_confidence" with
   | .int n => decide (0 ≤ n)
   | _ => false) &&
  d.all (fun kv => kv.1 == "match_confidence" || fieldOkVal kv.1 kv.2)

def oppOk (v : PyVal) : Bool :=
  match v with
  | .dict d => oppOkD d
  | _ => false

def partsOk (parts : List PyVal) : Bool :=
  parts.all (fun p =>
    match partOpps p with
    | some l => l.all oppOk
    | Option.none => false)

/-! ## The flattened opportunity stream and reference quantities for C3 -/

/-- All opportunity dicts of all parts, in processing order. -/
def oppDicts (parts : List PyVal) : List Dict :=
  ((parts.map (fun p => (partOpps p).getD [])).flatten).filterMap
    (fun v => match v with | .dict d => some d | _ => Option.none)

def keyOfD (d : Dict) : String := (keyOf d).getD ""

/-- The duplicate group of key `k`. -/
def groupOf (parts : List PyVal) (k : String) : List Dict :=
  (oppDicts parts).filter (fun d => keyOf d == some k)

/-- First-occurrence deduplication, preserving order of first appearance. -/
def firstDedup [DecidableEq α] : List α → List α
  | [] => []
  | x :: xs => x :: (firstDedup xs).filter (fun y => y ≠ x)

def confInt (d : Dict) : Int :=
  match dictGet d "match_confidence" with
  | .int n => n
  | _ => 0

def groupMaxConf (g : List Dict) : Int := (g.map confInt).foldl max 0

/-- First non-empty (truthy) value of field `f` in the group, defaulting to
the first record's value. -/
def specField (g : List Dict) (f : String) : PyVal :=
  match g with
  | [] => .none
  | g0 :: _ => (((g.map (fun d => dictGet d f)).find? truthy).getD (dictGet g0 f))

/-- The fold that the merge applies within one duplicate group: copy the
first record, then `updateExisting` with each later one. -/
def refFold (g : List Dict) : Dict :=
  match g with
  | [] => []
  | g0 :: rest => rest.foldl updateExisting g0

/-! ## Dict-level lemmas -/

theorem dictGet_dictSet_self (d : Dict) (k : String) (v : PyVal) :
    dictGet (dictSet d k v) k = v := by
  induction d with
  | nil => simp [dictSet, dictGet, dictGetDef]
  | cons kv t ih =>
    obtain ⟨k2, v2⟩ := kv
    by_cases h : k2 = k
    · subst h
      simp [dictSet, dictGet, dictGetDef]
    · simp only [dictSet, beq_iff_eq, if_neg h]
      simp only [dictGet, dictGetDef, beq_iff_eq, if_neg h] at ih ⊢
      exact ih

theorem dictGet_dictSet_ne (d : Dict) (k k2 : String) (v : PyVal) (h : k ≠ k2) :
    dictGet (dictSet d k v) k2 = dictGet d k2 := by
  induction d with
  | nil => simp [dictSet, dictGet, dictGetDef, h]
  | cons kv t ih =>
    obtain ⟨k3, v3⟩ := kv
    by_cases h3 : k3 = k
    · subst h3
      simp [dictSet, dictGet, dictGetDef, h]
    · simp only [dictSet, beq_iff_eq, if_neg h3]
      simp only [dictGet, dictGetDef]
      by_cases h32 : k3 = k2
      · simp [h32]
      · simp only [beq_iff_eq, if_neg h32]
        exact ih

theorem any_keys_iff (d : Dict) (k : String) :
    d.any (fun p => p.1 == k) = true ↔ k ∈ d.map Prod.fst := by
  simp [List.any_eq_true, List.mem_map, beq_iff_eq]

theorem dictSet_cons_ne (k2 : String) (v2 : PyVal) (t : Dict) (k : String) (v : PyVal)
    (h : k2 ≠ k) : dictSet ((k2, v2) :: t) k v = (k2, v2) :: dictSet t k v := by
  simp [dictSet, h]

theorem dictKeys_dictSet_mem (d : Dict) (k : String) (v : PyVal)
    (h : k ∈ d.map Prod.fst) : (dictSet d k v).map Prod.fst = d.map Prod.fst := by
  induction d with
  | nil => simp at h
  | cons kv t ih =>
    obtain ⟨k2, v2⟩ := kv
    by_cases hk : k2 = k
    · subst hk
      simp [dictSet]
    · rw [dictSet_cons_ne k2 v2 t k v hk]
      simp only [List.map_cons]
      rw [ih]
      simp only [List.map_cons, List.mem_cons] at h
      rcases h with h | h
      · exact absurd h.symm hk
      · exact h

theorem dictKeys_dictSet_not_mem (d : Dict) (k : String) (v : PyVal)
    (h : k ∉ d.map Prod.fst) : (dictSet d k v).map Prod.fst = d.map Prod.fst ++ [k] := by
  induction d with
  | nil => simp [dictSet]
  | cons kv t ih =>
    obtain ⟨k2, v2⟩ := kv
    simp only [List.map_cons, List.mem_cons] at h
    push_neg at h
    rw [dictSet_cons_ne k2 v2 t k v (Ne.symm h.1)]
    simp only [List.map_cons]
    rw [ih h.2]
    rfl

theorem nodupKeys_iff (d : Dict) : nodupKeys d = true ↔ (d.map Prod.fst).Nodup := by
  induction d with
  | nil => simp [nodupKeys]
  | cons kv t ih =>
    obtain ⟨k2, v2⟩ := kv
    simp only [nodupKeys, Bool.and_eq_true, Bool.not_eq_true', List.map_cons,
      List.nodup_cons, ih]
    constructor
    · rintro ⟨h1, h2⟩
      refine ⟨fun hm => ?_, h2⟩
      rw [← any_keys_iff] at hm
      rw [h1] at hm
      exact Bool.false_ne_true hm
    · rintro ⟨h1, h2⟩
      refine ⟨?_, h2⟩
      rw [← Bool.not_eq_true, any_keys_iff]
      exact h1

theorem nodupKeys_dictSet (d : Dict) (k : String) (v : PyVal)
    (h : nodupKeys d = true) : nodupKeys (dictSet d k v) = true := by
  rw [nodupKeys_iff] at h ⊢
  by_cases hm : k ∈ d.map Prod.fst
  · rw [dictKeys_dictSet_mem d k v hm]
    exact h
  · rw [dictKeys_dictSet_not_mem d k v hm]
    rw [List.nodup_append]
    exact ⟨h, List.nodup_singleton k, by simpa using hm⟩

theorem dictGet_mem (d : Dict) (f : String) :
    dictGet d f = .none ∨ (f, dictGet d f) ∈ d := by
  induction d with
  | nil => exact Or.inl rfl
  | cons kv t ih =>
    obtain ⟨k2, v2⟩ := kv
    by_cases h : k2 = f
    · subst h
      right
      simp [dictGet, dictGetDef]
    · simp only [dictGet, dictGetDef, beq_iff_eq, if_neg h]
      rcases ih with h1 | h2
      · exact Or.inl h1
      · exact Or.inr (List.mem_cons_of_mem _ h2)

theorem dictGet_head_of_nodup (d : Dict) (f : String) (v : PyVal)
    (hnd : nodupKeys d = true) (hmem : (f, v) ∈ d) : dictGet d f = v := by
  induction d with
  | nil => exact absurd hmem (List.not_mem_nil _)
  | cons kv t ih =>
    obtain ⟨k2, v2⟩ := kv
    simp only [nodupKeys, Bool.and_eq_true, Bool.not_eq_true'] at hnd
    rcases List.mem_cons.mp hmem with heq | htl
    · rw [Prod.mk.injEq] at heq
      obtain ⟨rfl, rfl⟩ := heq
      simp [dictGet, dictGetDef]
    · by_cases h : k2 = f
      · subst h
        have hfalse := List.any_eq_false.mp hnd.1 _ htl
        simp at hfalse
      · simp only [dictGet, dictGetDef, beq_iff_eq, if_neg h]
        exact ih hnd.2 htl

theorem mem_keys_of_dictGet_ne_none (d : Dict) (f : String)
    (h : dictGet d f ≠ .none) : f ∈ d.map Prod.fst := by
  rcases dictGet_mem d f with h1 | h2
  · exact absurd h1 h
  · exact List.mem_map.mpr ⟨(f, dictGet d f), h2, rfl⟩

/-! ## Characterization of the field-fill loop and `updateExisting` -/

theorem fillStep_get_ne (acc : Dict) (g : String) (w : PyVal) (f : String) (h : g ≠ f) :
    dictGet (fillStep acc (g, w)) f = dictGet acc f := by
  unfold fillStep
  split
  · exact dictGet_dictSet_ne acc g f w h
  · rfl

theorem fillFold_get_not_mem (od : List (String × PyVal)) :
    ∀ acc : Dict, ∀ f : String, f ∉ od.map Prod.fst →
      dictGet (od.foldl fillStep acc) f = dictGet acc f := by
  induction od with
  | nil => intro acc f _; rfl
  | cons kv t ih =>
    intro acc f hf
    obtain ⟨g, w⟩ := kv
    simp only [List.map_cons, List.mem_cons] at hf
    push_neg at hf
    rw [List.foldl_cons, ih (fillStep acc (g, w)) f hf.2,
      fillStep_get_ne acc g w f (Ne.symm hf.1)]

theorem fillFold_get (od : List (String × PyVal)) :
    ∀ acc : Dict, ∀ f : String, nodupKeys od = true →
      dictGet (od.foldl fillStep acc) f =
        if !truthy (dictGet acc f) && notBlank (dictGet od f) then dictGet od f
        else dictGet acc f := by
  induction od with
  | nil =>
    intro acc f _
    simp [dictGet, dictGetDef, notBlank]
  | cons kv t ih =>
    intro acc f hnd
    obtain ⟨g, w⟩ := kv
    simp only [nodupKeys, Bool.and_eq_true, Bool.not_eq_true'] at hnd
    rw [List.foldl_cons]
    by_cases hg : g = f
    · subst hg
      have hget : dictGet ((g, w) :: t) g = w := by simp [dictGet, dictGetDef]
      have hnot : g ∉ t.map Prod.fst := by
        intro hm
        rw [← any_keys_iff] at hm
        rw [hnd.1] at hm
        exact Bool.false_ne_true hm
      rw [fillFold_get_not_mem t (fillStep acc (g, w)) g hnot, hget]
      unfold fillStep
      dsimp only
      by_cases hc : (!truthy (dictGet acc g) && notBlank w) = true
      · rw [if_pos hc, dictGet_dictSet_self, if_pos hc]
      · rw [if_neg hc, if_neg hc]
    · have hget : dictGet ((g, w) :: t) f = dictGet t f := by
        simp [dictGet, dictGetDef, hg]
      rw [hget, ih (fillStep acc (g, w)) f hnd.2, fillStep_get_ne acc g w f hg]

theorem pyIntOr0_int (n : Int) : pyIntOr0 (.int n) = some n := by
  unfold pyIntOr0 truthy
  by_cases h : n = 0 <;> simp [h]

theorem confAdjusted_cases (e od : Dict) :
    confAdjusted e od = e ∨
      ∃ n : Int, confAdjusted e od = dictSet e "match_confidence" (.int n) := by
  unfold confAdjusted
  rcases pyIntOr0 (dictGet e "match_confidence") with _ | a
  · exact Or.inl rfl
  · rcases pyIntOr0 (dictGet od "match_confidence") with _ | b
    · exact Or.inl rfl
    · dsimp only
      by_cases hc : a < b
      · exact Or.inr ⟨b, by rw [if_pos hc]⟩
      · exact Or.inl (by rw [if_neg hc])

theorem confAdjusted_get_ne (e od : Dict) (f : String) (hf : f ≠ "match_confidence") :
    dictGet (confAdjusted e od) f = dictGet e f := by
  rcases confAdjusted_cases e od with h | ⟨n, h⟩
  · rw [h]
  · rw [h]
    exact dictGet_dictSet_ne e "match_confidence" f (.int n) (fun h2 => hf h2.symm)

theorem updateExisting_get_ne (e od : Dict) (f : String) (hf : f ≠ "match_confidence")
    (hnd : nodupKeys od = true) :
    dictGet (updateExisting e od) f =
      if !truthy (dictGet e f) && notBlank (dictGet od f) then dictGet od f
      else dictGet e f := by
  unfold updateExisting
  rw [fillFold_get od _ f hnd, confAdjusted_get_ne e od f hf]

theorem confAdjusted_get_conf (e od : Dict) (ce co : Int)
    (he : dictGet e "match_confidence" = .int ce)
    (ho : dictGet od "match_confidence" = .int co) :
    dictGet (confAdjusted e od) "match_confidence" = .int (max ce co) := by
  unfold confAdjusted
  rw [he, ho, pyIntOr0_int, pyIntOr0_int]
  dsimp only
  by_cases hc : ce < co
  · rw [if_pos hc, dictGet_dictSet_self]
    congr 1
    omega
  · rw [if_neg hc, he]
    congr 1
    omega

theorem updateExisting_get_conf (e od : Dict) (ce co : Int)
    (hnd : nodupKeys od = true)
    (he : dictGet e "match_confidence" = .int ce)
    (ho : dictGet od "match_confidence" = .int co)
    (hce : 0 ≤ ce) (hco : 0 ≤ co) :
    dictGet (updateExisting e od) "match_confidence" = .int (max ce co) := by
  unfold updateExisting
  rw [fillFold_get od _ _ hnd, confAdjusted_get_conf e od ce co he ho, ho]
  by_cases hm : max ce co = 0
  · have h1 : ce = 0 := by omega
    have h2 : co = 0 := by omega
    subst h1
    subst h2
    simp [truthy, notBlank]
  · have hb : (max ce co == 0) = false := beq_eq_false_iff_ne.mpr hm
    simp only [truthy, hb, Bool.not_false, Bool.not_true, Bool.false_and,
      if_neg Bool.false_ne_true]

theorem dictSet_all (P : String × PyVal → Bool) (d : Dict) (k : String) (v : PyVal)
    (hall : d.all P = true) (hp : P (k, v) = true) : (dictSet d k v).all P = true := by
  induction d with
  | nil => simp [dictSet, hp]
  | cons kv t ih =>
    obtain ⟨k2, v2⟩ := kv
    simp only [List.all_cons, Bool.and_eq_true] at hall
    by_cases h : k2 = k
    · have hred : dictSet ((k2, v2) :: t) k v = (k, v) :: t := by
        simp [dictSet, h]
      rw [hred]
      simp only [List.all_cons, Bool.and_eq_true]
      exact ⟨hp, hall.2⟩
    · rw [dictSet_cons_ne k2 v2 t k v h]
      simp only [List.all_cons, Bool.and_eq_true]
      exact ⟨hall.1, ih hall.2⟩

theorem fillFold_all (P : String × PyVal → Bool) (od : List (String × PyVal)) :
    ∀ acc : Dict, acc.all P = true → od.all P = true →
      (od.foldl fillStep acc).all P = true := by
  induction od with
  | nil => intro acc h _; exact h
  | cons kv t ih =>
    intro acc hacc hod
    obtain ⟨g, w⟩ := kv
    simp only [List.all_cons, Bool.and_eq_true] at hod
    rw [List.foldl_cons]
    refine ih (fillStep acc (g, w)) ?_ hod.2
    unfold fillStep
    split
    · exact dictSet_all P acc g w hacc hod.1
    · exact hacc

theorem fillFold_nodup (od : List (String × PyVal)) :
    ∀ acc : Dict, nodupKeys acc = true → nodupKeys (od.foldl fillStep acc) = true := by
  induction od with
  | nil => intro acc h; exact h
  | cons kv t ih =>
    intro acc hacc
    rw [List.foldl_cons]
    refine ih (fillStep acc kv) ?_
    unfold fillStep
    split
    · exact nodupKeys_dictSet acc kv.1 kv.2 hacc
    · exact hacc

/-- The confidence component of `oppOkD`, unpacked. -/
theorem oppOkD_conf (d : Dict) (h : oppOkD d = true) :
    ∃ n : Int, dictGet d "match_confidence" = .int n ∧ 0 ≤ n := by
  unfold oppOkD at h
  simp only [Bool.and_eq_true] at h
  have h2 := h.1.2
  rcases hd : dictGet d "match_confidence" with _ | _ | n | _ | _ <;> rw [hd] at h2
  · exact absurd h2 (by simp)
  · exact absurd h2 (by simp)
  · exact ⟨n, rfl, by simpa using h2⟩
  · exact absurd h2 (by simp)
  · exact absurd h2 (by simp)

theorem oppOkD_nodup (d : Dict) (h : oppOkD d = true) : nodupKeys d = true := by
  unfold oppOkD at h
  simp only [Bool.and_eq_true] at h
  exact h.1.1

theorem oppOkD_all (d : Dict) (h : oppOkD d = true) :
    d.all (fun kv => kv.1 == "match_confidence" || fieldOkVal kv.1 kv.2) = true := by
  unfold oppOkD at h
  simp only [Bool.and_eq_true] at h
  exact h.2

/-- Value typing at a non-confidence field, via the entry list. -/
theorem oppOkD_field (d : Dict) (f : String) (h : oppOkD d = true)
    (hf : f ≠ "match_confidence") : fieldOkVal f (dictGet d f) = true := by
  rcases dictGet_mem d f with h1 | h2
  · rw [h1]
    unfold fieldOkVal
    split <;> rfl
  · have := List.all_eq_true.mp (oppOkD_all d h) _ h2
    simp only [beq_iff_eq, Bool.or_eq_true] at this
    rcases this with h3 | h3
    · exact absurd h3 hf
    · exact h3

theorem fieldOkVal_notBlank_iff_truthy (f : String) (v : PyVal)
    (h : fieldOkVal f v = true) : notBlank v = truthy v := by
  rcases v with _ | s | n | xs | kvs
  · rfl
  · rfl
  · exfalso
    unfold fieldOkVal at h
    split at h <;> simp at h
  · rfl
  · exfalso
    unfold fieldOkVal at h
    split at h <;> simp at h

theorem confAdjusted_nodup (e od : Dict) (h : nodupKeys e = true) :
    nodupKeys (confAdjusted e od) = true := by
  rcases confAdjusted_cases e od with h2 | ⟨n, h2⟩ <;> rw [h2]
  · exact h
  · exact nodupKeys_dictSet e "match_confidence" _ h

theorem confAdjusted_all (e od : Dict)
    (h : e.all (fun kv => kv.1 == "match_confidence" || fieldOkVal kv.1 kv.2) = true) :
    (confAdjusted e od).all
      (fun kv => kv.1 == "match_confidence" || fieldOkVal kv.1 kv.2) = true := by
  rcases confAdjusted_cases e od with h2 | ⟨n, h2⟩ <;> rw [h2]
  · exact h
  · exact dictSet_all _ e "match_confidence" _ h (by simp)

theorem oppOkD_updateExisting (e od : Dict) (he : oppOkD e = true)
    (ho : oppOkD od = true) : oppOkD (updateExisting e od) = true := by
  obtain ⟨ce, hce, hce0⟩ := oppOkD_conf e he
  obtain ⟨co, hco, hco0⟩ := oppOkD_conf od ho
  have hndod := oppOkD_nodup od ho
  have hnde := oppOkD_nodup e he
  unfold oppOkD
  simp only [Bool.and_eq_true]
  refine ⟨⟨?_, ?_⟩, ?_⟩
  · unfold updateExisting
    exact fillFold_nodup od _ (confAdjusted_nodup e od hnde)
  · rw [updateExisting_get_conf e od ce co hndod hce hco hce0 hco0]
    simpa using le_trans hce0 (le_max_left ce co)
  · unfold updateExisting
    exact fillFold_all _ od _ (confAdjusted_all e od (oppOkD_all e he)) (oppOkD_all od ho)

/-! ## Per-group behaviour of the duplicate fold -/

theorem confInt_eq (d : Dict) (n : Int) (h : dictGet d "match_confidence" = .int n) :
    confInt d = n := by
  unfold confInt
  rw [h]

theorem refFoldAux_ok : ∀ (rest : List Dict) (r : Dict), oppOkD r = true →
    (∀ o ∈ rest, oppOkD o = true) → oppOkD (rest.foldl updateExisting r) = true := by
  intro rest
  induction rest with
  | nil => intro r hr _; exact hr
  | cons od t ih =>
    intro r hr hall
    rw [List.foldl_cons]
    exact ih (updateExisting r od)
      (oppOkD_updateExisting r od hr (hall od (List.mem_cons_self od t)))
      (fun o ho => hall o (List.mem_cons_of_mem od ho))

theorem refFoldAux_conf : ∀ (rest : List Dict) (r : Dict) (m : Int), oppOkD r = true →
    (∀ o ∈ rest, oppOkD o = true) →
    dictGet r "match_confidence" = .int m → 0 ≤ m →
    dictGet (rest.foldl updateExisting r) "match_confidence" =
      .int ((rest.map confInt).foldl max m) := by
  intro rest
  induction rest with
  | nil => intro r m _ _ hm _; exact hm
  | cons od t ih =>
    intro r m hr hall hm hm0
    have hok := hall od (List.mem_cons_self od t)
    obtain ⟨co, hco, hco0⟩ := oppOkD_conf od hok
    have hstep := updateExisting_get_conf r od m co (oppOkD_nodup od hok) hm hco hm0 hco0
    rw [List.foldl_cons, List.map_cons, List.foldl_cons]
    rw [confInt_eq od co hco]
    exact ih (updateExisting r od) (max m co)
      (oppOkD_updateExisting r od hr hok)
      (fun o ho => hall o (List.mem_cons_of_mem od ho))
      hstep (le_trans hm0 (le_max_left m co))

theorem refFoldAux_field : ∀ (rest : List Dict) (r : Dict) (f : String),
    f ≠ "match_confidence" → oppOkD r = true → (∀ o ∈ rest, oppOkD o = true) →
    dictGet (rest.foldl updateExisting r) f =
      (match (rest.map (fun d => dictGet d f)).find? truthy with
       | some x => if truthy (dictGet r f) then dictGet r f else x
       | Option.none => dictGet r f) := by
  intro rest
  induction rest with
  | nil =>
    intro r f _ _ _
    rfl
  | cons od t ih =>
    intro r f hf hr hall
    have hok := hall od (List.mem_cons_self od t)
    have hup := updateExisting_get_ne r od f hf (oppOkD_nodup od hok)
    have hnb : notBlank (dictGet od f) = truthy (dictGet od f) :=
      fieldOkVal_notBlank_iff_truthy f _ (oppOkD_field od f hok hf)
    rw [List.foldl_cons, List.map_cons,
      ih (updateExisting r od) f hf
        (oppOkD_updateExisting r od hr hok)
        (fun o ho => hall o (List.mem_cons_of_mem od ho))]
    by_cases hB : truthy (dictGet od f) = true
    · rw [List.find?_cons_of_pos _ hB]
      by_cases hA : truthy (dictGet r f) = true
      · have hupA : dictGet (updateExisting r od) f = dictGet r f := by
          rw [hup, hA]
          simp
        rw [hupA]
        rcases hfind : (List.map (fun d => dictGet d f) t).find? truthy with _ | x <;>
            dsimp only
        · rw [if_pos hA]
        · rw [if_pos hA, if_pos hA]
      · have hAf : truthy (dictGet r f) = false := by simpa using hA
        have hupB : dictGet (updateExisting r od) f = dictGet od f := by
          rw [hup, hnb, hAf, hB]
          simp
        rw [hupB]
        rcases hfind : (List.map (fun d => dictGet d f) t).find? truthy with _ | x <;>
            dsimp only
        · rw [if_neg (by simp [hAf])]
        · rw [if_pos hB, if_neg (by simp [hAf])]
    · have hBf : truthy (dictGet od f) = false := by simpa using hB
      rw [List.find?_cons_of_neg _ (by simp [hBf])]
      have hupB : dictGet (updateExisting r od) f = dictGet r f := by
        rw [hup, hnb, hBf]
        simp
      rw [hupB]

/-! ## Assoc-map lemmas for the `merged` insertion-ordered dict -/

theorem assocGet_assocSet_self (l : List (String × β)) (k : String) (v : β) :
    assocGet (assocSet l k v) k = some v := by
  induction l with
  | nil => simp [assocSet, assocGet]
  | cons p t ih =>
    obtain ⟨k2, v2⟩ := p
    by_cases h : k2 = k
    · simp [assocSet, assocGet, h]
    · simp only [assocSet, beq_iff_eq, if_neg h]
      simp only [assocGet, beq_iff_eq, if_neg h]
      exact ih

theorem assocGet_assocSet_ne (l : List (String × β)) (k k2 : String) (v : β)
    (h : k ≠ k2) : assocGet (assocSet l k v) k2 = assocGet l k2 := by
  induction l with
  | nil => simp [assocSet, assocGet, h]
  | cons p t ih =>
    obtain ⟨k3, v3⟩ := p
    by_cases h3 : k3 = k
    · subst h3
      simp [assocSet, assocGet, h]
    · simp only [assocSet, beq_iff_eq, if_neg h3]
      simp only [assocGet, beq_iff_eq]
      by_cases h32 : k3 = k2
      · simp [h32]
      · simp only [if_neg h32]
        exact ih

theorem assocGet_eq_none_iff (l : List (String × β)) (k : String) :
    assocGet l k = Option.none ↔ k ∉ l.map Prod.fst := by
  induction l with
  | nil => simp [assocGet]
  | cons p t ih =>
    obtain ⟨k2, v2⟩ := p
    by_cases h : k2 = k
    · subst h
      simp [assocGet]
    · simp only [assocGet, beq_iff_eq, if_neg h, List.map_cons, List.mem_cons, ih]
      constructor
      · intro h2
        rintro (h3 | h3)
        · exact h (h3.symm)
        · exact h2 h3
      · intro h2 h3
        exact h2 (Or.inr h3)

theorem assocSet_append_of_not_mem (l : List (String × β)) (k : String) (v : β)
    (h : k ∉ l.map Prod.fst) : assocSet l k v = l ++ [(k, v)] := by
  induction l with
  | nil => rfl
  | cons p t ih =>
    obtain ⟨k2, v2⟩ := p
    simp only [List.map_cons, List.mem_cons] at h
    push_neg at h
    simp only [assocSet, beq_iff_eq, if_neg (Ne.symm h.1)]
    rw [ih h.2]
    rfl

theorem assocKeys_assocSet_mem (l : List (String × β)) (k : String) (v : β)
    (h : k ∈ l.map Prod.fst) : (assocSet l k v).map Prod.fst = l.map Prod.fst := by
  induction l with
  | nil => simp at h
  | cons p t ih =>
    obtain ⟨k2, v2⟩ := p
    by_cases hk : k2 = k
    · subst hk
      simp [assocSet]
    · simp only [assocSet, beq_iff_eq, if_neg hk, List.map_cons]
      rw [ih]
      simp only [List.map_cons, List.mem_cons] at h
      rcases h with h | h
      · exact absurd h.symm hk
      · exact h

theorem mem_of_assocGet_eq_some (l : List (String × β)) (k : String) (v : β)
    (h : assocGet l k = some v) : (k, v) ∈ l := by
  induction l with
  | nil => simp [assocGet] at h
  | cons p t ih =>
    obtain ⟨k2, v2⟩ := p
    by_cases hk : k2 = k
    · subst hk
      have hv : some v2 = some v := by
        rw [← h]
        simp [assocGet]
      injection hv with hv2
      subst hv2
      exact List.mem_cons_self _ _
    · simp only [assocGet, beq_iff_eq, if_neg hk] at h
      exact List.mem_cons_of_mem _ (ih h)

theorem assocGet_of_mem_of_nodup (l : List (String × β)) (k : String) (v : β)
    (hnd : (l.map Prod.fst).Nodup) (hmem : (k, v) ∈ l) : assocGet l k = some v := by
  induction l with
  | nil => exact absurd hmem (List.not_mem_nil _)
  | cons p t ih =>
    obtain ⟨k2, v2⟩ := p
    simp only [List.map_cons, List.nodup_cons] at hnd
    rcases List.mem_cons.mp hmem with heq | htl
    · rw [Prod.mk.injEq] at heq
      obtain ⟨rfl, rfl⟩ := heq
      simp [assocGet]
    · by_cases hk : k2 = k
      · subst hk
        exact absurd (List.mem_map.mpr ⟨(k2, v), htl, rfl⟩) hnd.1
      · simp only [assocGet, beq_iff_eq, if_neg hk]
        exact ih hnd.2 htl

/-! ## `firstDedup` lemmas -/

theorem mem_firstDedup [DecidableEq α] (l : List α) (x : α) :
    x ∈ firstDedup l ↔ x ∈ l := by
  induction l with
  | nil => simp [firstDedup]
  | cons a t ih =>
    simp only [firstDedup, List.mem_cons, List.mem_filter, ih]
    constructor
    · rintro (rfl | ⟨h1, _⟩)
      · exact Or.inl rfl
      · exact Or.inr h1
    · rintro (rfl | h1)
      · exact Or.inl rfl
      · by_cases hx : x = a
        · exact Or.inl hx
        · exact Or.inr ⟨h1, by simpa using hx⟩

theorem nodup_firstDedup [DecidableEq α] (l : List α) : (firstDedup l).Nodup := by
  induction l with
  | nil => simp [firstDedup]
  | cons a t ih =>
    simp only [firstDedup, List.nodup_cons]
    refine ⟨fun hmem => ?_, List.Nodup.filter _ ih⟩
    have := (List.mem_filter.mp hmem).2
    simp at this

theorem firstDedup_append_not_mem [DecidableEq α] (l : List α) (x : α) (h : x ∉ l) :
    firstDedup (l ++ [x]) = firstDedup l ++ [x] := by
  induction l with
  | nil => rfl
  | cons a t ih =>
    simp only [List.mem_cons, not_or] at h
    rw [List.cons_append,
      show firstDedup (a :: (t ++ [x])) =
        a :: (firstDedup (t ++ [x])).filter (fun y => decide (y ≠ a)) from rfl,
      show firstDedup (a :: t) =
        a :: (firstDedup t).filter (fun y => decide (y ≠ a)) from rfl]
    rw [ih h.2, List.filter_append]
    rw [show List.filter (fun y => decide (y ≠ a)) [x] = [x] from by simp [h.1]]
    rw [List.cons_append]

theorem firstDedup_append_mem [DecidableEq α] (l : List α) (x : α) (h : x ∈ l) :
    firstDedup (l ++ [x]) = firstDedup l := by
  induction l with
  | nil => simp at h
  | cons a t ih =>
    rw [List.cons_append,
      show firstDedup (a :: (t ++ [x])) =
        a :: (firstDedup (t ++ [x])).filter (fun y => decide (y ≠ a)) from rfl,
      show firstDedup (a :: t) =
        a :: (firstDedup t).filter (fun y => decide (y ≠ a)) from rfl]
    rcases List.mem_cons.mp h with rfl | hmem
    · by_cases ht : x ∈ t
      · rw [ih ht]
      · rw [firstDedup_append_not_mem t x ht, List.filter_append]
        rw [show List.filter (fun y => decide (y ≠ x)) [x] = [] from by simp]
        rw [List.append_nil]
    · rw [ih hmem]

/-! ## Key extraction under well-typedness -/

theorem strOrEmpty_isSome_of_strlike (v : PyVal)
    (h : (match v with | .none => true | .str _ => true | _ => false) = true) :
    ∃ s, strOrEmpty v = some s := by
  rcases v with _ | s | n | xs | kvs
  · exact ⟨"", rfl⟩
  · by_cases hs : truthy (.str s) = true
    · exact ⟨s, by rw [strOrEmpty, if_pos hs]⟩
    · exact ⟨"", by rw [strOrEmpty, if_neg hs]⟩
  · simp at h
  · simp at h
  · simp at h

theorem keyfield_strlike (d : Dict) (f : String) (hok : oppOkD d = true)
    (hf : f ∈ keyFieldNames) :
    (match dictGet d f with | .none => true | .str _ => true | _ => false) = true := by
  have hfne : f ≠ "match_confidence" := by
    rcases (show f = "job_code" ∨ f = "job_description" ∨ f = "project_location" by
      simpa [keyFieldNames] using hf) with rfl | rfl | rfl <;> decide
  have hfv := oppOkD_field d f hok hfne
  unfold fieldOkVal at hfv
  rw [if_pos (by
    rcases (show f = "job_code" ∨ f = "job_description" ∨ f = "project_location" by
      simpa [keyFieldNames] using hf) with rfl | rfl | rfl <;> decide)] at hfv
  exact hfv

theorem keyOf_isSome_of_ok (d : Dict) (hok : oppOkD d = true) :
    ∃ k, keyOf d = some k := by
  obtain ⟨jc, h1⟩ := strOrEmpty_isSome_of_strlike _
    (keyfield_strlike d "job_code" hok (by simp [keyFieldNames]))
  obtain ⟨jd, h2⟩ := strOrEmpty_isSome_of_strlike _
    (keyfield_strlike d "job_description" hok (by simp [keyFieldNames]))
  obtain ⟨pl, h3⟩ := strOrEmpty_isSome_of_strlike _
    (keyfield_strlike d "project_location" hok (by simp [keyFieldNames]))
  exact ⟨_, by rw [keyOf, h1, h2, h3]; rfl⟩

theorem keyOfD_eq (d : Dict) (k : String) (h : keyOf d = some k) : keyOfD d = k := by
  unfold keyOfD
  rw [h]
  rfl

/-! ## The merge-loop invariant -/

/-- Invariant of the `for o in ...` loop of `_merge_opportunity_lists`:
after processing the opportunity dicts `done`, the map `acc` has the
first-seen distinct keys in order, and each key holds the fold of
`updateExisting` over its duplicate group. -/
def MergeInv (acc : List (String × Dict)) (done : List Dict) : Prop :=
  acc.map Prod.fst = firstDedup (done.map keyOfD) ∧
  (∀ d ∈ done, (keyOf d).isSome) ∧
  ∀ k : String, assocGet acc k =
    (match done.filter (fun d => keyOf d == some k) with
     | [] => Option.none
     | g0 :: rest => some (rest.foldl updateExisting g0))

theorem mergeInv_nil : MergeInv [] [] := by
  refine ⟨rfl, fun d hd => absurd hd (List.not_mem_nil d), fun k => rfl⟩

theorem mergeInv_step (acc : List (String × Dict)) (done : List Dict)
    (od : Dict) (k : String) (hk : keyOf od = some k) (hinv : MergeInv acc done) :
    mergeOne acc (.dict od) =
      some (match assocGet acc k with
            | Option.none => assocSet acc k od
            | some e => assocSet acc k (updateExisting e od)) ∧
    MergeInv (match assocGet acc k with
              | Option.none => assocSet acc k od
              | some e => assocSet acc k (updateExisting e od)) (done ++ [od]) := by
  obtain ⟨hkeys, hsome, hgroups⟩ := hinv
  constructor
  · rw [mergeOne, hk]
    rfl
  · have hfilter_app : ∀ k2 : String, (done ++ [od]).filter (fun d => keyOf d == some k2) =
        done.filter (fun d => keyOf d == some k2) ++
          (if k = k2 then [od] else []) := by
      intro k2
      rw [List.filter_append]
      congr 1
      by_cases hk2 : k = k2
      · subst hk2
        simp [List.filter, hk]
      · simp only [List.filter, hk]
        rw [show ((some k == some k2) : Bool) = false by
          simpa using beq_eq_false_iff_ne.mpr hk2]
        simp [hk2]
    rcases hget : assocGet acc k with _ | e
    · have hknotin : k ∉ acc.map Prod.fst := (assocGet_eq_none_iff acc k).mp hget
      have hfilter_nil : done.filter (fun d => keyOf d == some k) = [] := by
        have := hgroups k
        rw [hget] at this
        rcases hh : done.filter (fun d => keyOf d == some k) with _ | ⟨g0, rest⟩
        · rfl
        · rw [hh] at this
          exact absurd this.symm (by simp)
      have hknotdone : k ∉ done.map keyOfD := by
        intro hmem
        rcases List.mem_map.mp hmem with ⟨d, hd, hdk⟩
        have hds := hsome d hd
        rcases hds2 : keyOf d with _ | kd
        · rw [hds2] at hds
          simp at hds
        · have hkdk : kd = k := by
            have h5 := keyOfD_eq d kd hds2
            rw [h5] at hdk
            exact hdk
          have hds3 : keyOf d = some k := by rw [hds2, hkdk]
          have hmem2 : d ∈ done.filter (fun e => keyOf e == some k) :=
            List.mem_filter.mpr ⟨hd, by simp [hds3]⟩
          rw [hfilter_nil] at hmem2
          exact absurd hmem2 (List.not_mem_nil d)
      have hset : assocSet acc k od = acc ++ [(k, od)] :=
        assocSet_append_of_not_mem acc k od hknotin
      refine ⟨?_, ?_, ?_⟩
      · rw [hset, List.map_append, hkeys, List.map_append]
        simp only [List.map_cons, List.map_nil]
        rw [keyOfD_eq od k hk]
        rw [firstDedup_append_not_mem _ k hknotdone]
      · intro d hd
        rcases List.mem_append.mp hd with h1 | h1
        · exact hsome d h1
        · rcases List.mem_singleton.mp h1 with rfl
          rw [hk]
          rfl
      · intro k2
        rw [hfilter_app k2]
        by_cases hk2 : k = k2
        · subst hk2
          rw [hfilter_nil, if_pos rfl, List.nil_append, hset]
          have : assocGet (acc ++ [(k, od)]) k = some od := by
            rw [← hset]
            exact assocGet_assocSet_self acc k od
          rw [this]
          rfl
        · rw [if_neg hk2, List.append_nil, hset, ← hset,
            assocGet_assocSet_ne acc k k2 od hk2]
          exact hgroups k2
    · have hkin : k ∈ acc.map Prod.fst := by
        by_contra hc
        rw [← assocGet_eq_none_iff acc k] at hc
        rw [hget] at hc
        exact absurd hc (by simp)
      have hgk := hgroups k
      rw [hget] at hgk
      rcases hh : done.filter (fun d => keyOf d == some k) with _ | ⟨g0, rest⟩
      · rw [hh] at hgk
        exact absurd hgk (by simp)
      · rw [hh] at hgk
        have he : e = rest.foldl updateExisting g0 := by
          have := hgk
          simp only [Option.some_inj] at this
          exact this
        have hkdone : k ∈ done.map keyOfD := by
          have hg0 : g0 ∈ done.filter (fun d => keyOf d == some k) := by
            rw [hh]
            exact List.mem_cons_self g0 rest
          have hg0d := List.mem_filter.mp hg0
          have hg0k : keyOf g0 = some k := by
            have := hg0d.2
            simpa using this
          exact List.mem_map.mpr ⟨g0, hg0d.1, keyOfD_eq g0 k hg0k⟩
        refine ⟨?_, ?_, ?_⟩
        · rw [assocKeys_assocSet_mem acc k _ hkin, hkeys, List.map_append]
          simp only [List.map_cons, List.map_nil]
          rw [keyOfD_eq od k hk, firstDedup_append_mem _ k hkdone]
        · intro d hd
          rcases List.mem_append.mp hd with h1 | h1
          · exact hsome d h1
          · rcases List.mem_singleton.mp h1 with rfl
            rw [hk]
            rfl
        · intro k2
          rw [hfilter_app k2]
          by_cases hk2 : k = k2
          · subst hk2
            rw [hh, if_pos rfl]
            rw [assocGet_assocSet_self acc k _]
            show some (updateExisting e od) =
              some (List.foldl updateExisting g0 (rest ++ [od]))
            rw [List.foldl_append, he]
            rfl
          · rw [if_neg hk2, List.append_nil,
              assocGet_assocSet_ne acc k k2 _ hk2]
            exact hgroups k2

theorem mergeOppsInto_inv : ∀ (os : List PyVal) (acc : List (String × Dict))
    (done : List Dict) (final : List (String × Dict)),
    MergeInv acc done → mergeOppsInto acc os = some final →
    ∃ ds : List Dict, os = ds.map PyVal.dict ∧ MergeInv final (done ++ ds) := by
  intro os
  induction os with
  | nil =>
    intro acc done final hinv hrun
    rw [mergeOppsInto] at hrun
    simp only [Option.some_inj] at hrun
    subst hrun
    exact ⟨[], rfl, by simpa using hinv⟩
  | cons o os ih =>
    intro acc done final hinv hrun
    rw [mergeOppsInto] at hrun
    rcases hone : mergeOne acc o with _ | acc2
    · rw [hone] at hrun
      exact absurd hrun (by simp)
    · rw [hone] at hrun
      rcases o with _ | s | n | xs | od
      · exact absurd hone (by simp [mergeOne])
      · exact absurd hone (by simp [mergeOne])
      · exact absurd hone (by simp [mergeOne])
      · exact absurd hone (by simp [mergeOne])
      · rcases hks : keyOf od with _ | k
        · rw [mergeOne, hks] at hone
          exact absurd hone (by simp)
        · obtain ⟨hone2, hinv2⟩ := mergeInv_step acc done od k hks hinv
          rw [hone] at hone2
          simp only [Option.some_inj] at hone2
          rw [← hone2] at hinv2
          obtain ⟨ds, hds, hinv3⟩ := ih acc2 (done ++ [od]) final hinv2 hrun
          refine ⟨od :: ds, by rw [hds]; rfl, ?_⟩
          rw [List.append_assoc] at hinv3
          simpa using hinv3

theorem mergeOppsInto_total : ∀ (os : List PyVal) (acc : List (String × Dict)),
    (∀ o ∈ os, oppOk o = true) →
    ∃ final, mergeOppsInto acc os = some final := by
  intro os
  induction os with
  | nil => intro acc _; exact ⟨acc, rfl⟩
  | cons o os ih =>
    intro acc hall
    have hok := hall o (List.mem_cons_self o os)
    rcases o with _ | s | n | xs | od
    · simp [oppOk] at hok
    · simp [oppOk] at hok
    · simp [oppOk] at hok
    · simp [oppOk] at hok
    · obtain ⟨k, hk⟩ := keyOf_isSome_of_ok od hok
      obtain ⟨final, hfin⟩ := ih
        (match assocGet acc k with
         | Option.none => assocSet acc k od
         | some e => assocSet acc k (updateExisting e od))
        (fun o2 ho2 => hall o2 (List.mem_cons_of_mem (PyVal.dict od) ho2))
      refine ⟨final, ?_⟩
      rw [mergeOppsInto, mergeOne, hk]
      exact hfin

theorem mergeOppsInto_append (l1 l2 : List PyVal) : ∀ acc : List (String × Dict),
    mergeOppsInto acc (l1 ++ l2) =
      (match mergeOppsInto acc l1 with
       | some a => mergeOppsInto a l2
       | Option.none => Option.none) := by
  induction l1 with
  | nil => intro acc; rfl
  | cons o t ih =>
    intro acc
    rw [List.cons_append, mergeOppsInto, mergeOppsInto]
    rcases mergeOne acc o with _ | acc2
    · rfl
    · exact ih acc2

theorem mergePartsFrom_eq_flatten (parts : List PyVal)
    (h : ∀ p ∈ parts, (partOpps p).isSome = true) :
    ∀ acc : List (String × Dict),
      mergePartsFrom acc parts =
        mergeOppsInto acc ((parts.map (fun p => (partOpps p).getD [])).flatten) := by
  induction parts with
  | nil => intro acc; rfl
  | cons p ps ih =>
    intro acc
    have hp := h p (List.mem_cons_self p ps)
    rcases hps : partOpps p with _ | opps
    · rw [hps] at hp
      simp at hp
    · have hred : mergePartsFrom acc (p :: ps) =
          (match mergeOppsInto acc opps with
           | some acc2 => mergePartsFrom acc2 ps
           | Option.none => Option.none) := by
        rw [mergePartsFrom, hps]
      rw [List.map_cons, List.flatten_cons, mergeOppsInto_append, hred]
      simp only [hps, Option.getD_some]
      rcases mergeOppsInto acc opps with _ | acc2
      · rfl
      · exact ih (fun q hq => h q (List.mem_cons_of_mem p hq)) acc2

/-! ## Assembling C3 -/

theorem filterMap_map_dict (ds : List Dict) :
    (ds.map PyVal.dict).filterMap
      (fun v => match v with | .dict d => some d | _ => Option.none) = ds := by
  induction ds with
  | nil => rfl
  | cons d t ih => simp [List.filterMap_cons, ih]

theorem partsOk_isSome (parts : List PyVal) (h : partsOk parts = true) :
    ∀ p ∈ parts, (partOpps p).isSome = true := by
  intro p hp
  have hq := (List.all_eq_true.mp h) p hp
  rcases hpo : partOpps p with _ | l
  · rw [hpo] at hq
    simp at hq
  · rfl

theorem partsOk_opps_ok (parts : List PyVal) (h : partsOk parts = true) :
    ∀ o ∈ (parts.map (fun p => (partOpps p).getD [])).flatten, oppOk o = true := by
  intro o ho
  rcases List.mem_flatten.mp ho with ⟨l, hl, hol⟩
  rcases List.mem_map.mp hl with ⟨p, hp, rfl⟩
  have hq := (List.all_eq_true.mp h) p hp
  rcases hpo : partOpps p with _ | xs
  · rw [hpo] at hq
    simp at hq
  · rw [hpo] at hq hol
    simp only [Option.getD_some] at hol
    exact List.all_eq_true.mp hq o hol

theorem specField_cons_match (g0 : Dict) (rest : List Dict) (f : String) :
    specField (g0 :: rest) f =
      (match (rest.map (fun d => dictGet d f)).find? truthy with
       | some x => if truthy (dictGet g0 f) then dictGet g0 f else x
       | Option.none => dictGet g0 f) := by
  unfold specField
  rw [List.map_cons]
  by_cases hg : truthy (dictGet g0 f) = true
  · rw [List.find?_cons_of_pos _ hg]
    rcases (rest.map (fun d => dictGet d f)).find? truthy with _ | x
    · simp [hg]
    · simp [hg]
  · have hgf : truthy (dictGet g0 f) = false := by simpa using hg
    rw [List.find?_cons_of_neg _ (by simp [hgf])]
    rcases hf2 : (rest.map (fun d => dictGet d f)).find? truthy with _ | x
    · simp
    · simp [hgf]

theorem groupMaxConf_cons (g0 : Dict) (rest : List Dict) (c0 : Int)
    (hc : confInt g0 = c0) (hc0 : 0 ≤ c0) :
    groupMaxConf (g0 :: rest) = (rest.map confInt).foldl max c0 := by
  unfold groupMaxConf
  rw [List.map_cons, List.foldl_cons, hc, max_eq_right hc0]

/-- C3: for well-typed opportunity parts (each part a dict whose
`instrumentation_opportunities` is a list of dicts with Python-unique keys,
an integer `match_confidence ≥ 0`, string-or-None merge-key fields and
string/None/list other fields), `_merge_opportunity_lists` succeeds and
returns exactly one record per distinct merge key in first-seen order; each
surviving record carries the maximum `match_confidence` of its duplicate
group, and every other field holds the first non-empty (truthy) value
encountered in the group — an already-populated field is never
overwritten. -/
theorem C3_deterministic_merge (parts : List PyVal) (hok : partsOk parts = true) :
    ∃ acc, mergeRecords parts = some acc ∧
      acc.map Prod.fst = firstDedup ((oppDicts parts).map keyOfD) ∧
      ∀ p ∈ acc,
        dictGet p.2 "match_confidence" = .int (groupMaxConf (groupOf parts p.1)) ∧
        ∀ f, f ≠ "match_confidence" → dictGet p.2 f = specField (groupOf parts p.1) f := by
  have hsome := partsOk_isSome parts hok
  have hoonly := partsOk_opps_ok parts hok
  obtain ⟨final, hfin⟩ := mergeOppsInto_total
    ((parts.map (fun p => (partOpps p).getD [])).flatten) [] hoonly
  have hrec : mergeRecords parts = some final := by
    rw [mergeRecords, mergePartsFrom_eq_flatten parts hsome []]
    exact hfin
  obtain ⟨ds, hds, hinv⟩ := mergeOppsInto_inv _ [] [] final mergeInv_nil hfin
  rw [List.nil_append] at hinv
  obtain ⟨hkeys, _, hgroups⟩ := hinv
  have hopd : oppDicts parts = ds := by
    unfold oppDicts
    rw [hds]
    exact filterMap_map_dict ds
  have hdok : ∀ d ∈ ds, oppOkD d = true := by
    intro d hd
    have hmem : PyVal.dict d ∈ (parts.map (fun p => (partOpps p).getD [])).flatten := by
      rw [hds]
      exact List.mem_map.mpr ⟨d, hd, rfl⟩
    have h2 := hoonly _ hmem
    simpa [oppOk] using h2
  refine ⟨final, hrec, by rw [hkeys, hopd], ?_⟩
  intro p hp
  obtain ⟨k, rec⟩ := p
  have hnd : (final.map Prod.fst).Nodup := by
    rw [hkeys]
    exact nodup_firstDedup _
  have hget : assocGet final k = some rec :=
    assocGet_of_mem_of_nodup final k rec hnd hp
  have hg := hgroups k
  rw [hget] at hg
  rcases hfil : ds.filter (fun d => keyOf d == some k) with _ | ⟨g0, rest⟩
  · rw [hfil] at hg
    exact absurd hg (by simp)
  · rw [hfil] at hg
    have hrec2 : rec = rest.foldl updateExisting g0 := by simpa using hg
    have hgrp : groupOf parts k = g0 :: rest := by
      rw [groupOf, hopd, hfil]
    have hgall : ∀ d ∈ g0 :: rest, oppOkD d = true := by
      intro d hd
      have hmem : d ∈ ds.filter (fun d => keyOf d == some k) := by
        rw [hfil]
        exact hd
      exact hdok d (List.mem_filter.mp hmem).1
    have hg0ok : oppOkD g0 = true := hgall g0 (List.mem_cons_self g0 rest)
    have hrestok : ∀ d ∈ rest, oppOkD d = true :=
      fun d hd => hgall d (List.mem_cons_of_mem g0 hd)
    obtain ⟨c0, hc0, hc00⟩ := oppOkD_conf g0 hg0ok
    constructor
    · show dictGet rec "match_confidence" = _
      rw [hrec2, hgrp]
      rw [refFoldAux_conf rest g0 c0 hg0ok hrestok hc0 hc00]
      rw [groupMaxConf_cons g0 rest c0 (confInt_eq g0 c0 hc0) hc00]
    · intro f hf
      show dictGet rec f = _
      rw [hrec2, hgrp]
      rw [refFoldAux_field rest g0 f hf hg0ok hrestok]
      rw [specField_cons_match g0 rest f]

/-- Concrete parts for the C3 witness: two parts whose opportunities share
the merge key (job_code "M-101"). -/
def sampleParts : List PyVal :=
  [.dict [("instrumentation_opportunities", .list
      [.dict [("job_code", .str "M-101"), ("match_confidence", .int 70)]])],
   .dict [("instrumentation_opportunities", .list
      [.dict [("job_code", .str "M-101"), ("match_confidence", .int 85),
              ("project_location", .str "Austin")],
       .dict [("job_code", .str "V-7"), ("match_confidence", .int 40)]])]]

theorem C3_deterministic_merge_witness :
    partsOk sampleParts = true ∧
    ∃ acc, mergeRecords sampleParts = some acc ∧
      acc.map Prod.fst = firstDedup ((oppDicts sampleParts).map keyOfD) ∧
      ∀ p ∈ acc,
        dictGet p.2 "match_confidence" = .int (groupMaxConf (groupOf sampleParts p.1)) ∧
        ∀ f, f ≠ "match_confidence" →
          dictGet p.2 f = specField (groupOf sampleParts p.1) f :=
  ⟨by decide, C3_deterministic_merge sampleParts (by decide)⟩

/-! ## C8: pipe-free keys -/

/-- `'|'` does not occur in the normalized (stripped, lowercased) value of
any merge-key field, and each key field is a string or falsy. -/
def pipeFreeD (d : Dict) : Bool :=
  keyFieldNames.all (fun f =>
    match strOrEmpty (dictGet d f) with
    | some s => (normKey s).all (fun c => !(c == '|'))
    | Option.none => false)

theorem pipeFreeD_notMem (d : Dict) (f : String) (hf : f ∈ keyFieldNames)
    (h : pipeFreeD d = true) (s : String)
    (hs : strOrEmpty (dictGet d f) = some s) : '|' ∉ normKey s := by
  unfold pipeFreeD at h
  have h2 := List.all_eq_true.mp h f hf
  rw [hs] at h2
  intro hmem
  have h3 := List.all_eq_true.mp h2 '|' hmem
  simp at h3

theorem pipe_split : ∀ (a a2 rest rest2 : List Char), '|' ∉ a → '|' ∉ a2 →
    a ++ '|' :: rest = a2 ++ '|' :: rest2 → a = a2 ∧ rest = rest2 := by
  intro a
  induction a with
  | nil =>
    intro a2 rest rest2 _ ha2 h
    rcases a2 with _ | ⟨c, t⟩
    · rw [List.nil_append, List.nil_append] at h
      injection h with _ h2
      exact ⟨rfl, h2⟩
    · rw [List.nil_append, List.cons_append] at h
      injection h with h1 _
      exact absurd (by rw [h1]; exact List.mem_cons_self c t) ha2
  | cons c t ih =>
    intro a2 rest rest2 ha ha2 h
    rcases a2 with _ | ⟨c2, t2⟩
    · rw [List.cons_append, List.nil_append] at h
      injection h with h1 _
      exact absurd (by rw [← h1]; exact List.mem_cons_self c t) ha
    · rw [List.cons_append, List.cons_append] at h
      injection h with h1 h2
      obtain ⟨h3, h4⟩ := ih t2 rest rest2
        (fun hm => ha (List.mem_cons_of_mem c hm))
        (fun hm => ha2 (List.mem_cons_of_mem c2 hm)) h2
      exact ⟨by rw [h1, h3], h4⟩

theorem keyOf_parts (d : Dict) (hok : oppOkD d = true) :
    ∃ jc jd pl : String,
      strOrEmpty (dictGet d "job_code") = some jc ∧
      strOrEmpty (dictGet d "job_description") = some jd ∧
      strOrEmpty (dictGet d "project_location") = some pl ∧
      keyOf d = some (String.mk
        (normKey jc ++ '|' :: ((normKey jd).take 120 ++ '|' :: normKey pl))) := by
  obtain ⟨jc, h1⟩ := strOrEmpty_isSome_of_strlike _
    (keyfield_strlike d "job_code" hok (by simp [keyFieldNames]))
  obtain ⟨jd, h2⟩ := strOrEmpty_isSome_of_strlike _
    (keyfield_strlike d "job_description" hok (by simp [keyFieldNames]))
  obtain ⟨pl, h3⟩ := strOrEmpty_isSome_of_strlike _
    (keyfield_strlike d "project_location" hok (by simp [keyFieldNames]))
  exact ⟨jc, jd, pl, h1, h2, h3, by rw [keyOf, h1, h2, h3]; rfl⟩

theorem key_components_eq (jc jd pl jc2 jd2 pl2 : String)
    (h1 : '|' ∉ normKey jc) (h2 : '|' ∉ normKey jc2)
    (h3 : '|' ∉ normKey jd) (h4 : '|' ∉ normKey jd2)
    (heq : String.mk (normKey jc ++ '|' :: ((normKey jd).take 120 ++ '|' :: normKey pl)) =
        String.mk (normKey jc2 ++ '|' :: ((normKey jd2).take 120 ++ '|' :: normKey pl2))) :
    normKey jc = normKey jc2 ∧ (normKey jd).take 120 = (normKey jd2).take 120 ∧
      normKey pl = normKey pl2 := by
  have hl : normKey jc ++ '|' :: ((normKey jd).take 120 ++ '|' :: normKey pl) =
      normKey jc2 ++ '|' :: ((normKey jd2).take 120 ++ '|' :: normKey pl2) :=
    congrArg String.data heq
  obtain ⟨e1, hrest⟩ := pipe_split _ _ _ _ h1 h2 hl
  obtain ⟨e2, e3⟩ := pipe_split _ _ _ _
    (fun hm => h3 (List.mem_of_mem_take hm))
    (fun hm => h4 (List.mem_of_mem_take hm)) hrest
  exact ⟨e1, e2, e3⟩

theorem updateExisting_get_mem (e od : Dict) (f : String)
    (hf : f ≠ "match_confidence") (hnd : nodupKeys od = true) :
    dictGet (updateExisting e od) f = dictGet e f ∨
    dictGet (updateExisting e od) f = dictGet od f := by
  rw [updateExisting_get_ne e od f hf hnd]
  by_cases hc : (!truthy (dictGet e f) && notBlank (dictGet od f)) = true
  · right
    rw [if_pos hc]
  · left
    rw [if_neg hc]

theorem keyOf_updateExisting (e od : Dict) (k : String)
    (he : oppOkD e = true) (ho : oppOkD od = true)
    (hpe : pipeFreeD e = true) (hpo : pipeFreeD od = true)
    (hke : keyOf e = some k) (hko : keyOf od = some k) :
    keyOf (updateExisting e od) = some k := by
  obtain ⟨jc, jd, pl, hjc, hjd, hpl, hkey⟩ := keyOf_parts e he
  obtain ⟨jc2, jd2, pl2, hjc2, hjd2, hpl2, hkey2⟩ := keyOf_parts od ho
  rw [hke] at hkey
  rw [hko] at hkey2
  have hk1 := Option.some.inj hkey
  have hk2 := Option.some.inj hkey2
  have hjcin : ("job_code" : String) ∈ keyFieldNames := by simp [keyFieldNames]
  have hjdin : ("job_description" : String) ∈ keyFieldNames := by simp [keyFieldNames]
  have hplin : ("project_location" : String) ∈ keyFieldNames := by simp [keyFieldNames]
  obtain ⟨ceq1, ceq2, ceq3⟩ := key_components_eq jc jd pl jc2 jd2 pl2
    (pipeFreeD_notMem e "job_code" hjcin hpe jc hjc)
    (pipeFreeD_notMem od "job_code" hjcin hpo jc2 hjc2)
    (pipeFreeD_notMem e "job_description" hjdin hpe jd hjd)
    (pipeFreeD_notMem od "job_description" hjdin hpo jd2 hjd2)
    (hk1.symm.trans hk2)
  have hndod := oppOkD_nodup od ho
  obtain ⟨sjc, hsjc, hnjc⟩ : ∃ s,
      strOrEmpty (dictGet (updateExisting e od) "job_code") = some s ∧
      normKey s = normKey jc := by
    rcases updateExisting_get_mem e od "job_code" (by decide) hndod with h | h
    · exact ⟨jc, by rw [h]; exact hjc, rfl⟩
    · exact ⟨jc2, by rw [h]; exact hjc2, ceq1.symm⟩
  obtain ⟨sjd, hsjd, hnjd⟩ : ∃ s,
      strOrEmpty (dictGet (updateExisting e od) "job_description") = some s ∧
      (normKey s).take 120 = (normKey jd).take 120 := by
    rcases updateExisting_get_mem e od "job_description" (by decide) hndod with h | h
    · exact ⟨jd, by rw [h]; exact hjd, rfl⟩
    · exact ⟨jd2, by rw [h]; exact hjd2, ceq2.symm⟩
  obtain ⟨spl, hspl, hnpl⟩ : ∃ s,
      strOrEmpty (dictGet (updateExisting e od) "project_location") = some s ∧
      normKey s = normKey pl := by
    rcases updateExisting_get_mem e od "project_location" (by decide) hndod with h | h
    · exact ⟨pl, by rw [h]; exact hpl, rfl⟩
    · exact ⟨pl2, by rw [h]; exact hpl2, ceq3.symm⟩
  rw [keyOf, hsjc, hsjd, hspl]
  show some (String.mk
      (normKey sjc ++ '|' :: ((normKey sjd).take 120 ++ '|' :: normKey spl))) = some k
  rw [hnjc, hnjd, hnpl, hk1]

theorem pipeFreeD_updateExisting (e od : Dict) (ho : oppOkD od = true)
    (hpe : pipeFreeD e = true) (hpo : pipeFreeD od = true) :
    pipeFreeD (updateExisting e od) = true := by
  unfold pipeFreeD at hpe hpo ⊢
  rw [List.all_eq_true]
  intro f hf
  have hfne : f ≠ "match_confidence" := by
    rcases (show f = "job_code" ∨ f = "job_description" ∨ f = "project_location" by
      simpa [keyFieldNames] using hf) with rfl | rfl | rfl <;> decide
  rcases updateExisting_get_mem e od f hfne (oppOkD_nodup od ho) with h | h
  · have h2 := List.all_eq_true.mp hpe f hf
    rw [h]
    exact h2
  · have h2 := List.all_eq_true.mp hpo f hf
    rw [h]
    exact h2

theorem keyOf_refFoldAux : ∀ (rest : List Dict) (r : Dict) (k : String),
    oppOkD r = true → pipeFreeD r = true → keyOf r = some k →
    (∀ o ∈ rest, oppOkD o = true) → (∀ o ∈ rest, pipeFreeD o = true) →
    (∀ o ∈ rest, keyOf o = some k) →
    keyOf (rest.foldl updateExisting r) = some k := by
  intro rest
  induction rest with
  | nil =>
    intro r k _ _ hk _ _ _
    exact hk
  | cons od t ih =>
    intro r k hr hpr hkr hall hpall hkall
    rw [List.foldl_cons]
    have ho := hall od (List.mem_cons_self od t)
    have hpo := hpall od (List.mem_cons_self od t)
    have hko := hkall od (List.mem_cons_self od t)
    exact ih (updateExisting r od) k
      (oppOkD_updateExisting r od hr ho)
      (pipeFreeD_updateExisting r od ho hpr hpo)
      (keyOf_updateExisting r od k hr ho hpr hpo hkr hko)
      (fun o hh => hall o (List.mem_cons_of_mem od hh))
      (fun o hh => hpall o (List.mem_cons_of_mem od hh))
      (fun o hh => hkall o (List.mem_cons_of_mem od hh))

/-! ## Re-merging an already-merged list -/

theorem mergeOppsInto_keyed : ∀ (recs : List (String × Dict)),
    (∀ p ∈ recs, keyOf p.2 = some p.1) →
    (recs.map Prod.fst).Nodup →
    ∀ acc : List (String × Dict),
    (∀ p ∈ recs, assocGet acc p.1 = Option.none) →
    mergeOppsInto acc (recs.map (fun p => PyVal.dict p.2)) = some (acc ++ recs) := by
  intro recs
  induction recs with
  | nil =>
    intro _ _ acc _
    simp [mergeOppsInto]
  | cons p t ih =>
    intro hkey hnd acc hnone
    obtain ⟨k, rec⟩ := p
    have hk : keyOf rec = some k := hkey (k, rec) (List.mem_cons_self _ _)
    have hga : assocGet acc k = Option.none := hnone (k, rec) (List.mem_cons_self _ _)
    have hknotin : k ∉ acc.map Prod.fst := (assocGet_eq_none_iff acc k).mp hga
    have hone : mergeOne acc (PyVal.dict rec) = some (assocSet acc k rec) := by
      rw [mergeOne, hk]
      show some (match assocGet acc k with
        | Option.none => assocSet acc k rec
        | some existing => assocSet acc k (updateExisting existing rec)) =
        some (assocSet acc k rec)
      rw [hga]
    have hndt : k ∉ t.map Prod.fst ∧ (t.map Prod.fst).Nodup :=
      List.nodup_cons.mp (by simpa using hnd)
    have hnone2 : ∀ q ∈ t, assocGet (acc ++ [(k, rec)]) q.1 = Option.none := by
      intro q hq
      have hq1 : q.1 ≠ k := by
        intro hqk
        have hm : q.1 ∈ t.map Prod.fst := List.mem_map.mpr ⟨q, hq, rfl⟩
        rw [hqk] at hm
        exact hndt.1 hm
      rw [← assocSet_append_of_not_mem acc k rec hknotin]
      rw [assocGet_assocSet_ne acc k q.1 rec (fun h2 => hq1 h2.symm)]
      exact hnone q (List.mem_cons_of_mem _ hq)
    have ihh := ih (fun q hq => hkey q (List.mem_cons_of_mem _ hq)) hndt.2
      (acc ++ [(k, rec)]) hnone2
    have hstep : mergeOppsInto acc (((k, rec) :: t).map (fun p => PyVal.dict p.2)) =
        mergeOppsInto (assocSet acc k rec) (t.map (fun p => PyVal.dict p.2)) := by
      rw [List.map_cons, mergeOppsInto, hone]
    rw [hstep, assocSet_append_of_not_mem acc k rec hknotin, ihh, List.append_assoc]
    rfl

/-- C8 (amended): the deterministic merge is idempotent on well-typed parts
whose normalized merge-key fields contain no `'|'`; re-merging the merged
result is then a no-op.  (With a `'|'` inside a key field, distinct field
triples can collide on the same key string, a field fill can change the
surviving record's recomputed key, and re-merging collapses records — see
the counterexample.) -/
theorem C8_idempotent_amended (parts : List PyVal)
    (hok : partsOk parts = true)
    (hpf : (oppDicts parts).all pipeFreeD = true) :
    (mergeOpportunityLists parts).bind (fun r => mergeOpportunityLists [r]) =
      mergeOpportunityLists parts := by
  have hsome := partsOk_isSome parts hok
  have hoonly := partsOk_opps_ok parts hok
  obtain ⟨final, hfin⟩ := mergeOppsInto_total
    ((parts.map (fun p => (partOpps p).getD [])).flatten) [] hoonly
  have hrec : mergeRecords parts = some final := by
    rw [mergeRecords, mergePartsFrom_eq_flatten parts hsome []]
    exact hfin
  obtain ⟨ds, hds, hinv⟩ := mergeOppsInto_inv _ [] [] final mergeInv_nil hfin
  rw [List.nil_append] at hinv
  obtain ⟨hkeys, _, hgroups⟩ := hinv
  have hopd : oppDicts parts = ds := by
    unfold oppDicts
    rw [hds]
    exact filterMap_map_dict ds
  have hdok : ∀ d ∈ ds, oppOkD d = true := by
    intro d hd
    have hmem : PyVal.dict d ∈ (parts.map (fun p => (partOpps p).getD [])).flatten := by
      rw [hds]
      exact List.mem_map.mpr ⟨d, hd, rfl⟩
    have h2 := hoonly _ hmem
    simpa [oppOk] using h2
  have hdpf : ∀ d ∈ ds, pipeFreeD d = true := by
    intro d hd
    exact List.all_eq_true.mp hpf d (by rw [hopd]; exact hd)
  have hnd : (final.map Prod.fst).Nodup := by
    rw [hkeys]
    exact nodup_firstDedup _
  have hkeyrec : ∀ p ∈ final, keyOf p.2 = some p.1 := by
    intro p hp
    obtain ⟨k, rec⟩ := p
    have hget : assocGet final k = some rec :=
      assocGet_of_mem_of_nodup final k rec hnd hp
    have hg := hgroups k
    rw [hget] at hg
    rcases hfil : ds.filter (fun d => keyOf d == some k) with _ | ⟨g0, rest⟩
    · rw [hfil] at hg
      exact absurd hg (by simp)
    · rw [hfil] at hg
      have hrec2 : rec = rest.foldl updateExisting g0 := by simpa using hg
      have hgall : ∀ d ∈ g0 :: rest, d ∈ ds ∧ keyOf d = some k := by
        intro d hd
        have hm : d ∈ ds.filter (fun d => keyOf d == some k) := by
          rw [hfil]
          exact hd
        obtain ⟨hin, hpred⟩ := List.mem_filter.mp hm
        exact ⟨hin, by simpa using hpred⟩
      have hg0 := hgall g0 (List.mem_cons_self g0 rest)
      show keyOf rec = some k
      rw [hrec2]
      exact keyOf_refFoldAux rest g0 k
        (hdok g0 hg0.1) (hdpf g0 hg0.1) hg0.2
        (fun o hh => hdok o (hgall o (List.mem_cons_of_mem g0 hh)).1)
        (fun o hh => hdpf o (hgall o (List.mem_cons_of_mem g0 hh)).1)
        (fun o hh => (hgall o (List.mem_cons_of_mem g0 hh)).2)
  have hre : mergeRecords
      [.dict [("instrumentation_opportunities",
          .list (final.map (fun p => PyVal.dict p.2)))]] = some final := by
    rw [mergeRecords]
    have hpart : partOpps (.dict [("instrumentation_opportunities",
        .list (final.map (fun p => PyVal.dict p.2)))]) =
        some (final.map (fun p => PyVal.dict p.2)) := by
      simp [partOpps, truthy, dictGetDef]
    rw [mergePartsFrom, hpart]
    have hkeyed := mergeOppsInto_keyed final hkeyrec hnd [] (fun p _ => rfl)
    show (match mergeOppsInto [] (final.map (fun p => PyVal.dict p.2)) with
      | some acc2 => mergePartsFrom acc2 []
      | Option.none => Option.none) = some final
    rw [hkeyed]
    rfl
  rw [mergeOpportunityLists, hrec]
  show mergeOpportunityLists [.dict [("instrumentation_opportunities",
      .list (final.map (fun p => PyVal.dict p.2)))]] =
    some (.dict [("instrumentation_opportunities",
      .list (final.map (fun p => PyVal.dict p.2)))])
  rw [mergeOpportunityLists, hre]
  rfl

theorem C8_idempotent_amended_witness :
    partsOk sampleParts = true ∧
    (oppDicts sampleParts).all pipeFreeD = true ∧
    (mergeOpportunityLists sampleParts).bind (fun r => mergeOpportunityLists [r]) =
      mergeOpportunityLists sampleParts :=
  ⟨by decide, by decide, C8_idempotent_amended sampleParts (by decide) (by decide)⟩

/-- Parts whose key fields contain `'|'`: records 1 and 2 have different
field triples but the same key string; the fill gives the merged record a
new key equal to record 3's, so a second merge collapses 2 records to 1. -/
def pipeParts : List PyVal :=
  [.dict [("instrumentation_opportunities", .list
      [.dict [("job_code", .str ""), ("job_description", .str "a|b"),
              ("match_confidence", .int 10)],
       .dict [("job_code", .str "|a"), ("job_description", .str "b"),
              ("match_confidence", .int 20)],
       .dict [("job_code", .str "|a"), ("job_description", .str "a|b"),
              ("match_confidence", .int 30)]])]]

/-- The number of merged opportunities in a `_merge_opportunity_lists`
result. -/
def oppCount (v : PyVal) : Nat :=
  match v with
  | .dict d =>
    match dictGet d "instrumentation_opportunities" with
    | .list xs => xs.length
    | _ => 0
  | _ => 0

/-- C8 counterexample: `_merge_opportunity_lists` is NOT idempotent.  On
`pipeParts` the first merge yields 2 records, but merging the merged result
yields 1: the two differ already in how many opportunities they hold. -/
theorem C8_counterexample :
    ((mergeOpportunityLists pipeParts).bind
        (fun r => mergeOpportunityLists [r])).map oppCount ≠
      (mergeOpportunityLists pipeParts).map oppCount := by decide

/-! ## C10: the merge does not mutate its input (store model)

Python dicts are heap references.  We model the heap as a `Store` (a list
of dict cells addressed by index) and re-run the merge loop with explicit
reads, writes and allocations: `existing = dict(o)` allocates a fresh copy
at the end of the store, and both the confidence update and the field
fills write only to that copy's cell. -/

abbrev Store := List Dict

/-- Dereference a dict (reads never mutate). -/
def readS (st : Store) (r : Nat) : Dict := st.getD r []

/-- In-place dict update `st[r] := d`. -/
def writeS (st : Store) (r : Nat) (d : Dict) : Store := st.set r d

/-- The merge loop over the opportunities of one part, store explicit.
Each opportunity is a reference into the store; a failing `key_of` is the
propagated exception (`Option.none` second component), which leaves the
store as it was at the raise. -/
def mergeRunS (st : Store) (acc : List (String × Nat)) :
    List Nat → Store × Option (List (String × Nat))
  | [] => (st, some acc)
  | r :: rs =>
    match keyOf (readS st r) with
    | Option.none => (st, Option.none)
    | some k =>
      match assocGet acc k with
      | Option.none =>
          mergeRunS (st ++ [readS st r]) (assocSet acc k st.length) rs
      | some er =>
          mergeRunS (writeS st er (updateExisting (readS st er) (readS st r))) acc rs

/-- The outer loop over the parts (the part dicts are only read). -/
def mergePartsRunS (st : Store) (acc : List (String × Nat)) :
    List (List Nat) → Store × Option (List (String × Nat))
  | [] => (st, some acc)
  | opps :: ps =>
    match mergeRunS st acc opps with
    | (st2, some acc2) => mergePartsRunS st2 acc2 ps
    | (st2, Option.none) => (st2, Option.none)

theorem take_set_of_le {α : Type _} : ∀ (st : List α) (r : Nat) (d : α) (n : Nat),
    n ≤ r → (st.set r d).take n = st.take n := by
  intro st
  induction st with
  | nil =>
    intro r d n _
    rfl
  | cons x t ih =>
    intro r d n h
    rcases r with _ | r
    · have hn : n = 0 := Nat.le_zero.mp h
      subst hn
      rfl
    · rcases n with _ | n
      · rfl
      · show x :: (t.set r d).take n = x :: t.take n
        rw [ih r d n (Nat.succ_le_succ_iff.mp h)]

theorem mem_assocSet : ∀ (l : List (String × β)) (k : String) (v : β)
    (p : String × β), p ∈ assocSet l k v → p ∈ l ∨ p = (k, v) := by
  intro l
  induction l with
  | nil =>
    intro k v p hp
    right
    simpa [assocSet] using hp
  | cons q t ih =>
    intro k v p hp
    obtain ⟨k2, v2⟩ := q
    rw [assocSet] at hp
    by_cases h : (k2 == k) = true
    · rw [if_pos h] at hp
      rcases List.mem_cons.mp hp with h2 | h2
      · right
        exact h2
      · left
        exact List.mem_cons_of_mem _ h2
    · rw [if_neg h] at hp
      rcases List.mem_cons.mp hp with h2 | h2
      · left
        rw [h2]
        exact List.mem_cons_self _ _
      · rcases ih k v p h2 with h3 | h3
        · left
          exact List.mem_cons_of_mem _ h3
        · right
          exact h3

theorem mergeRunS_frame : ∀ (rs : List Nat) (st : Store)
    (acc : List (String × Nat)) (n : Nat),
    n ≤ st.length → (∀ p ∈ acc, n ≤ p.2) →
    n ≤ (mergeRunS st acc rs).1.length ∧
    (mergeRunS st acc rs).1.take n = st.take n ∧
    ∀ acc2, (mergeRunS st acc rs).2 = some acc2 → ∀ p ∈ acc2, n ≤ p.2 := by
  intro rs
  induction rs with
  | nil =>
    intro st acc n hn hacc
    refine ⟨hn, rfl, ?_⟩
    intro acc2 h2
    have h3 : some acc = some acc2 := h2
    injection h3 with h4
    subst h4
    exact hacc
  | cons r rs ih =>
    intro st acc n hn hacc
    rcases hk : keyOf (readS st r) with _ | k
    · have hred : mergeRunS st acc (r :: rs) = (st, Option.none) := by
        rw [mergeRunS, hk]
      rw [hred]
      exact ⟨hn, rfl, fun acc2 h2 => absurd h2 (by simp)⟩
    · rcases hg : assocGet acc k with _ | er
      · have hred : mergeRunS st acc (r :: rs) =
            mergeRunS (st ++ [readS st r]) (assocSet acc k st.length) rs := by
          rw [mergeRunS, hk]
          show (match assocGet acc k with
            | Option.none =>
                mergeRunS (st ++ [readS st r]) (assocSet acc k st.length) rs
            | some er =>
                mergeRunS (writeS st er (updateExisting (readS st er) (readS st r)))
                  acc rs) =
            mergeRunS (st ++ [readS st r]) (assocSet acc k st.length) rs
          rw [hg]
        rw [hred]
        have hn2 : n ≤ (st ++ [readS st r]).length := by
          rw [List.length_append]
          omega
        have hacc2 : ∀ p ∈ assocSet acc k st.length, n ≤ p.2 := by
          intro p hp
          rcases mem_assocSet acc k st.length p hp with h | h
          · exact hacc p h
          · rw [h]
            exact hn
        obtain ⟨ih1, ih2, ih3⟩ := ih (st ++ [readS st r]) (assocSet acc k st.length) n
          hn2 hacc2
        refine ⟨ih1, ?_, ih3⟩
        rw [ih2]
        exact List.take_append_of_le_length hn
      · have her : n ≤ er :=
          hacc (k, er) (mem_of_assocGet_eq_some acc k er hg)
        have hred : mergeRunS st acc (r :: rs) =
            mergeRunS (writeS st er (updateExisting (readS st er) (readS st r)))
              acc rs := by
          rw [mergeRunS, hk]
          show (match assocGet acc k with
            | Option.none =>
                mergeRunS (st ++ [readS st r]) (assocSet acc k st.length) rs
            | some er =>
                mergeRunS (writeS st er (updateExisting (readS st er) (readS st r)))
                  acc rs) =
            mergeRunS (writeS st er (updateExisting (readS st er) (readS st r))) acc rs
          rw [hg]
        rw [hred]
        have hn2 : n ≤ (writeS st er (updateExisting (readS st er) (readS st r))).length := by
          rw [writeS, List.length_set]
          exact hn
        obtain ⟨ih1, ih2, ih3⟩ := ih _ acc n hn2 hacc
        refine ⟨ih1, ?_, ih3⟩
        rw [ih2, writeS]
        exact take_set_of_le st er _ n her

theorem mergePartsRunS_frame : ∀ (ps : List (List Nat)) (st : Store)
    (acc : List (String × Nat)) (n : Nat),
    n ≤ st.length → (∀ p ∈ acc, n ≤ p.2) →
    n ≤ (mergePartsRunS st acc ps).1.length ∧
    (mergePartsRunS st acc ps).1.take n = st.take n ∧
    ∀ acc2, (mergePartsRunS st acc ps).2 = some acc2 → ∀ p ∈ acc2, n ≤ p.2 := by
  intro ps
  induction ps with
  | nil =>
    intro st acc n hn hacc
    refine ⟨hn, rfl, ?_⟩
    intro acc2 h2
    have h3 : some acc = some acc2 := h2
    injection h3 with h4
    subst h4
    exact hacc
  | cons opps t ih =>
    intro st acc n hn hacc
    obtain ⟨h1, h2, h3⟩ := mergeRunS_frame opps st acc n hn hacc
    rcases hrun : mergeRunS st acc opps with ⟨st2, macc⟩
    rcases macc with _ | acc2
    · have hred : mergePartsRunS st acc (opps :: t) = (st2, Option.none) := by
        rw [mergePartsRunS, hrun]
      rw [hred]
      rw [hrun] at h1 h2
      exact ⟨h1, h2, fun a2 ha => absurd ha (by simp)⟩
    · have hred : mergePartsRunS st acc (opps :: t) = mergePartsRunS st2 acc2 t := by
        rw [mergePartsRunS, hrun]
      rw [hred]
      rw [hrun] at h1 h2 h3
      have hacc2 : ∀ p ∈ acc2, n ≤ p.2 := h3 acc2 rfl
      obtain ⟨g1, g2, g3⟩ := ih st2 acc2 n h1 hacc2
      refine ⟨g1, ?_, g3⟩
      rw [g2]
      exact h2

/-- C10: `_merge_opportunity_lists` never mutates its input.  Every input
dict lives in the initial store; the merge allocates its working copies
(`existing = dict(o)`) at fresh indices past the input and writes only to
those, so after the run — even one aborted by an exception — the initial
segment of the store, i.e. every input part and opportunity dict, is
unchanged. -/
theorem C10_merge_never_mutates_input (st : Store) (parts : List (List Nat)) :
    (mergePartsRunS st [] parts).1.take st.length = st := by
  obtain ⟨h1, h2, h3⟩ := mergePartsRunS_frame parts st [] st.length le_rfl
    (fun p hp => absurd hp (List.not_mem_nil p))
  rw [h2, List.take_length]

/-! ## C5: `map_ai_opportunity_to_row` and its normalizers -/

/-- `.strip()` of a string. -/
def pyStrip (s : String) : String := String.mk (stripL s.data)

/-- ASCII `.lower()` of a string. -/
def pyLower (s : String) : String := String.mk (s.data.map pyCharLower)

/-- Python `repr` (the string escaping inside quotes is not modeled). -/
def pyRepr : PyVal → String
  | .none => "None"
  | .str s => "\x27" ++ s ++ "\x27"
  | .int n => toString n
  | .list xs =>
    "[" ++ String.intercalate ", " (xs.attach.map (fun x => pyRepr x.1)) ++ "]"
  | .dict kvs =>
    "\x7b" ++ String.intercalate ", "
      (kvs.attach.map (fun kv => "\x27" ++ kv.1.1 ++ "\x27: " ++ pyRepr kv.1.2)) ++
      "\x7d"
termination_by v => sizeOf v
decreasing_by
  · have h1 := List.sizeOf_lt_of_mem x.2
    simp only [PyVal.list.sizeOf_spec]
    omega
  · have h1 := List.sizeOf_lt_of_mem kv.2
    obtain ⟨⟨a, b⟩, hm⟩ := kv
    simp only [Prod.mk.sizeOf_spec] at h1 ⊢
    simp only [PyVal.dict.sizeOf_spec]
    omega

/-- Python `str()`. -/
def pyStr : PyVal → String
  | .str s => s
  | v => pyRepr v

/-- `int(v)` on an arbitrary value (`Option.none` = raises). -/
def pyIntOf : PyVal → Option Int
  | .int n => some n
  | .str s => pyParseInt s
  | _ => Option.none

/-- `_clamp_int(v, lo, hi)`: `max(lo, min(int(v), hi))`, `None` if `int`
raises. -/
def clampInt (v : PyVal) (lo hi : Int) : Option Int :=
  (pyIntOf v).map (fun n => max lo (min n hi))

/-- `_strip_or_none(v)`. -/
def stripOrNone (v : PyVal) : Option String :=
  match v with
  | .str s => if pyStrip s == "" then Option.none else some (pyStrip s)
  | _ => Option.none

/-- `_truncate` on an actual string (all call sites pass one). -/
def truncate (s : String) (n : Nat) : String :=
  if s.length ≤ n then s else String.mk (s.data.take n)

/-- `x or y`. -/
def pyOr (a b : PyVal) : PyVal := if truthy a then a else b

def jobSizeAllowed : List String := ["small", "medium", "big", "very big"]

def techComplexAllowed : List String :=
  ["low", "medium", "high", "specialized", "Not specified"]

/-- `_one_of(value, allowed, default)`: a truthy non-string raises
(`value.strip()` has no attribute `strip`). -/
def oneOf (value : PyVal) (allowed : List String) (dflt : String) : Option String :=
  if !truthy value then some dflt
  else match value with
    | .str s =>
      some ((allowed.find? (fun a => pyLower (pyStrip s) == pyLower a)).getD dflt)
    | _ => Option.none

def normalizeJobSize (v : PyVal) : Option String := oneOf v jobSizeAllowed "small"

/-- `_normalize_technical_complexity`. -/
def normalizeTechnicalComplexity (v : PyVal) : Option String :=
  if !truthy v then some "Not specified"
  else match v with
    | .str s =>
      if pyLower (pyStrip s) == "not specified" then some "Not specified"
      else oneOf (.str s) techComplexAllowed "Not specified"
    | _ => Option.none

/-- Python substring containment `n in h`. -/
def takeMatch : List Char → List Char → Bool
  | [], _ => true
  | _ :: _, [] => false
  | c :: n, d :: h => c == d && takeMatch n h

def strContainsL (n : List Char) : List Char → Bool
  | [] => takeMatch n []
  | d :: t => takeMatch n (d :: t) || strContainsL n t

def strContains (needle hay : String) : Bool := strContainsL needle.data hay.data

/-- The substring-dispatch chain of `_normalize_contract_value_range`, on
the already stripped and lowercased string. -/
def cvrTable (s : String) : String :=
  if strContains "not specified" s then "Not specified"
  else if strContains "small" s then "small (<$500K)"
  else if strContains "medium" s then "medium ($500K-$5M)"
  else if strContains "large" s && !strContains ">$" s then "medium ($500K-$5M)"
  else if strContains "mega" s then
    (if strContains "50m" s || strContains ">$50" s then "mega (>$50M)"
     else "large ($5M-$50M)")
  else if strContains ">$5m" s || strContains "$5m" s || strContains "5m" s then
    "large ($5M-$50M)"
  else "Not specified"

/-- `_normalize_contract_value_range`. -/
def normalizeContractValueRange (v : PyVal) : Option String :=
  if !truthy v then some "Not specified"
  else match v with
    | .str sv => some (cvrTable (pyLower (pyStrip sv)))
    | _ => Option.none

/-- `map_ai_opportunity_to_row(project_id, opp)`: the row dict, in source
order; `Option.none` is a propagated exception.  The helper computations
that cannot raise are inlined at their use sites; the three normalizer
calls that can raise are sequenced in the order the dict literal evaluates
them. -/
def mapAiOpportunityToRow (projectId : Int) (opp : Dict) : Option Dict := do
  let js ← normalizeJobSize (dictGet opp "job_size")
  let cvr ← normalizeContractValueRange
    (dictGetDef opp "contract_value_range" (.str "Not specified"))
  let tc ← normalizeTechnicalComplexity
    (dictGetDef opp "technical_complexity" (.str "Not specified"))
  some [
    ("project_id", .int projectId),
    ("job_code", .str (if truthy (pyOr (dictGet opp "job_code") (.str ""))
        then truncate (pyStr (pyOr (dictGet opp "job_code") (.str ""))) 10
        else truncate (toString projectId) 10)),
    ("job_description", pyOr (dictGetDef opp "job_description" (.str "")) (.str "")),
    ("job_summary", pyOr (dictGetDef opp "job_summary" (.str "")) (.str "")),
    ("job_size", .str js),
    ("project_type", pyOr (dictGetDef opp "project_type" (.str "General")) (.str "General")),
    ("frequency", .str (truncate
        ((stripOrNone (dictGet opp "monitoring_frequency")).getD "Not specified") 255)),
    ("match_confidence",
      match clampInt (dictGet opp "match_confidence") 0 100 with
      | some n => .int n
      | Option.none => .none),
    ("contract_value_range", .str cvr),
    ("submission_deadline", .str (truncate
        ((stripOrNone (dictGet opp "submission_deadline")).getD "Not specified") 255)),
    ("licensing_requirements", dictGet opp "licensing_requirements"),
    ("technical_complexity", .str tc),
    ("project_location", .str (truncate
        ((stripOrNone (dictGet opp "project_location")).getD "Not specified") 255)),
    ("contract_duration", .str (truncate
        ((stripOrNone (dictGet opp "contract_duration")).getD "Not specified") 255)),
    ("insurance_requirements", dictGet opp "insurance_requirements"),
    ("equipment_specifications", dictGet opp "equipment_needed"),
    ("compliance_standards", dictGet opp "compliance_standards"),
    ("reporting_requirements", dictGet opp "reporting_requirements")]

/-- The three enum-bearing inputs must be strings or falsy for the
normalizers not to raise. -/
def isStrOrFalsy (v : PyVal) : Bool :=
  !truthy v || (match v with | .str _ => true | _ => false)

def cvrEnums : List String :=
  ["Not specified", "small (<$500K)", "medium ($500K-$5M)", "large ($5M-$50M)",
   "mega (>$50M)"]

theorem oneOf_mem (v : PyVal) (allowed : List String) (dflt : String)
    (hv : isStrOrFalsy v = true) :
    ∃ s, oneOf v allowed dflt = some s ∧ (s ∈ allowed ∨ s = dflt) := by
  unfold oneOf
  by_cases ht : truthy v = true
  · rw [if_neg (by simp [ht])]
    rcases v with _ | s | n | xs | kvs
    · simp [truthy] at ht
    · rcases hf : allowed.find? (fun a => pyLower (pyStrip s) == pyLower a) with _ | a
      · refine ⟨dflt, ?_, Or.inr rfl⟩
        show some ((allowed.find? (fun a => pyLower (pyStrip s) == pyLower a)).getD dflt) =
          some dflt
        rw [hf]
        rfl
      · refine ⟨a, ?_, Or.inl (List.mem_of_find?_eq_some hf)⟩
        show some ((allowed.find? (fun a => pyLower (pyStrip s) == pyLower a)).getD dflt) =
          some a
        rw [hf]
        rfl
    · simp [isStrOrFalsy, ht] at hv
    · simp [isStrOrFalsy, ht] at hv
    · simp [isStrOrFalsy, ht] at hv
  · have ht2 : truthy v = false := by simpa using ht
    rw [if_pos (by rw [ht2]; rfl)]
    exact ⟨dflt, rfl, Or.inr rfl⟩

theorem normalizeJobSize_mem (v : PyVal) (hv : isStrOrFalsy v = true) :
    ∃ s, normalizeJobSize v = some s ∧ s ∈ jobSizeAllowed := by
  obtain ⟨s, h1, h2⟩ := oneOf_mem v jobSizeAllowed "small" hv
  refine ⟨s, h1, ?_⟩
  rcases h2 with h | h
  · exact h
  · rw [h]
    decide

theorem normalizeTechnicalComplexity_mem (v : PyVal) (hv : isStrOrFalsy v = true) :
    ∃ s, normalizeTechnicalComplexity v = some s ∧ s ∈ techComplexAllowed := by
  unfold normalizeTechnicalComplexity
  by_cases ht : truthy v = true
  · rw [if_neg (by simp [ht])]
    rcases v with _ | s | n | xs | kvs
    · simp [truthy] at ht
    · show ∃ s2, (if pyLower (pyStrip s) == "not specified" then some "Not specified"
        else oneOf (.str s) techComplexAllowed "Not specified") = some s2 ∧
        s2 ∈ techComplexAllowed
      by_cases hns : (pyLower (pyStrip s) == "not specified") = true
      · rw [if_pos hns]
        exact ⟨"Not specified", rfl, by decide⟩
      · rw [if_neg hns]
        obtain ⟨s2, h2, h3⟩ := oneOf_mem (.str s) techComplexAllowed "Not specified"
          (by simp [isStrOrFalsy])
        refine ⟨s2, h2, ?_⟩
        rcases h3 with h | h
        · exact h
        · rw [h]
          decide
    · simp [isStrOrFalsy, ht] at hv
    · simp [isStrOrFalsy, ht] at hv
    · simp [isStrOrFalsy, ht] at hv
  · have ht2 : truthy v = false := by simpa using ht
    rw [if_pos (by rw [ht2]; rfl)]
    exact ⟨"Not specified", rfl, by decide⟩

theorem cvrTable_mem (s : String) : cvrTable s ∈ cvrEnums := by
  unfold cvrTable
  split
  · decide
  · split
    · decide
    · split
      · decide
      · split
        · decide
        · split
          · split
            · decide
            · decide
          · split
            · decide
            · decide

theorem normalizeContractValueRange_mem (v : PyVal) (hv : isStrOrFalsy v = true) :
    ∃ s, normalizeContractValueRange v = some s ∧ s ∈ cvrEnums := by
  unfold normalizeContractValueRange
  by_cases ht : truthy v = true
  · rw [if_neg (by simp [ht])]
    rcases v with _ | s | n | xs | kvs
    · simp [truthy] at ht
    · exact ⟨cvrTable (pyLower (pyStrip s)), rfl, cvrTable_mem _⟩
    · simp [isStrOrFalsy, ht] at hv
    · simp [isStrOrFalsy, ht] at hv
    · simp [isStrOrFalsy, ht] at hv
  · have ht2 : truthy v = false := by simpa using ht
    rw [if_pos (by rw [ht2]; rfl)]
    exact ⟨"Not specified", rfl, by decide⟩

/-- C5 counterexample: `map_ai_opportunity_to_row` DOES raise for some
input dicts — a truthy non-string `job_size` (here the int 1) reaches
`value.strip()` inside `_one_of` and raises `AttributeError`. -/
theorem C5_counterexample :
    mapAiOpportunityToRow 7 [("job_size", .int 1)] = Option.none := rfl

/-- C5 (amended): whenever the three enum-bearing fields (`job_size`,
`contract_value_range`, `technical_complexity`) hold strings or falsy
values — in particular for every dict missing any subset of fields, since
absent keys read as `None` — the row mapper returns a row without raising,
and its `job_size`, `technical_complexity` and `contract_value_range`
entries lie in their closed enumerations.  (It is NOT exception-free for
arbitrarily typed values: see the counterexample.) -/
theorem C5_row_mapper_amended (projectId : Int) (opp : Dict)
    (hjs : isStrOrFalsy (dictGet opp "job_size") = true)
    (hcv : isStrOrFalsy
      (dictGetDef opp "contract_value_range" (.str "Not specified")) = true)
    (htc : isStrOrFalsy
      (dictGetDef opp "technical_complexity" (.str "Not specified")) = true) :
    ∃ row, mapAiOpportunityToRow projectId opp = some row ∧
      (∃ s, dictGet row "job_size" = .str s ∧ s ∈ jobSizeAllowed) ∧
      (∃ s, dictGet row "technical_complexity" = .str s ∧ s ∈ techComplexAllowed) ∧
      (∃ s, dictGet row "contract_value_range" = .str s ∧ s ∈ cvrEnums) := by
  obtain ⟨js, hjs2, hjsm⟩ := normalizeJobSize_mem _ hjs
  obtain ⟨cv, hcv2, hcvm⟩ := normalizeContractValueRange_mem _ hcv
  obtain ⟨tc, htc2, htcm⟩ := normalizeTechnicalComplexity_mem _ htc
  refine ⟨[
    ("project_id", .int projectId),
    ("job_code", .str (if truthy (pyOr (dictGet opp "job_code") (.str ""))
        then truncate (pyStr (pyOr (dictGet opp "job_code") (.str ""))) 10
        else truncate (toString projectId) 10)),
    ("job_description", pyOr (dictGetDef opp "job_description" (.str "")) (.str "")),
    ("job_summary", pyOr (dictGetDef opp "job_summary" (.str "")) (.str "")),
    ("job_size", .str js),
    ("project_type", pyOr (dictGetDef opp "project_type" (.str "General")) (.str "General")),
    ("frequency", .str (truncate
        ((stripOrNone (dictGet opp "monitoring_frequency")).getD "Not specified") 255)),
    ("match_confidence",
      match clampInt (dictGet opp "match_confidence") 0 100 with
      | some n => .int n
      | Option.none => .none),
    ("contract_value_range", .str cv),
    ("submission_deadline", .str (truncate
        ((stripOrNone (dictGet opp "submission_deadline")).getD "Not specified") 255)),
    ("licensing_requirements", dictGet opp "licensing_requirements"),
    ("technical_complexity", .str tc),
    ("project_location", .str (truncate
        ((stripOrNone (dictGet opp "project_location")).getD "Not specified") 255)),
    ("contract_duration", .str (truncate
        ((stripOrNone (dictGet opp "contract_duration")).getD "Not specified") 255)),
    ("insurance_requirements", dictGet opp "insurance_requirements"),
    ("equipment_specifications", dictGet opp "equipment_needed"),
    ("compliance_standards", dictGet opp "compliance_standards"),
    ("reporting_requirements", dictGet opp "reporting_requirements")],
    ?_, ⟨js, rfl, hjsm⟩, ⟨tc, rfl, htcm⟩, ⟨cv, rfl, hcvm⟩⟩
  unfold mapAiOpportunityToRow
  rw [hjs2, hcv2, htc2]
  rfl

theorem C5_row_mapper_amended_witness :
    isStrOrFalsy (dictGet ([] : Dict) "job_size") = true ∧
    isStrOrFalsy
      (dictGetDef ([] : Dict) "contract_value_range" (.str "Not specified")) = true ∧
    isStrOrFalsy
      (dictGetDef ([] : Dict) "technical_complexity" (.str "Not specified")) = true ∧
    (∃ row, mapAiOpportunityToRow 7 ([] : Dict) = some row ∧
      (∃ s, dictGet row "job_size" = .str s ∧ s ∈ jobSizeAllowed) ∧
      (∃ s, dictGet row "technical_complexity" = .str s ∧ s ∈ techComplexAllowed) ∧
      (∃ s, dictGet row "contract_value_range" = .str s ∧ s ∈ cvrEnums)) :=
  ⟨rfl, rfl, rfl, C5_row_mapper_amended 7 [] rfl rfl rfl⟩

/-! ## C7: `merge_opportunities_with_ai` fallback behaviour -/

/-- `merge_opportunities_with_ai(processor, all_opportunities, project_id)`.
The external pieces are parameters: `mergePrompt` is
`processor._load_merge_prompt_local()` (`Option.none` = `None`),
`chatComplete` is the completion call together with the
`response.choices[0].message.content if response and response.choices
else ""` extraction (`.error` = the call raised, the `.ok` string is the
extracted content), and `jsonParse` is `json.loads` (`Option.none` = parse
error).  Every failure path falls back to the original list. -/
def mergeOpportunitiesWithAI (mergePrompt : Option String)
    (chatComplete : Except Unit String) (jsonParse : String → Option PyVal)
    (allOpps : List PyVal) : PyVal :=
  if allOpps.isEmpty then .list []
  else if allOpps.length == 1 then .list allOpps
  else match mergePrompt with
    | Option.none => .list allOpps
    | some p =>
      if p == "" then .list allOpps
      else match chatComplete with
        | .error _ => .list allOpps
        | .ok content =>
          if content == "" then .list allOpps
          else match jsonParse content with
            | Option.none => .list allOpps
            | some parsed =>
              match parsed with
              | .dict d => dictGetDef d "instrumentation_opportunities" (.list [])
              | _ => .list allOpps

theorem mergeAI_reduce (mergePrompt : Option String)
    (chatComplete : Except Unit String) (jsonParse : String → Option PyVal)
    (a : PyVal) (t : List PyVal) (h1 : ((a :: t).length == 1) = false) :
    mergeOpportunitiesWithAI mergePrompt chatComplete jsonParse (a :: t) =
      (match mergePrompt with
       | Option.none => PyVal.list (a :: t)
       | some p =>
         if p == "" then PyVal.list (a :: t)
         else match chatComplete with
           | .error _ => PyVal.list (a :: t)
           | .ok content =>
             if content == "" then PyVal.list (a :: t)
             else match jsonParse content with
               | Option.none => PyVal.list (a :: t)
               | some parsed =>
                 match parsed with
                 | .dict d => dictGetDef d "instrumentation_opportunities" (.list [])
                 | _ => PyVal.list (a :: t)) := by
  unfold mergeOpportunitiesWithAI
  rw [if_neg (by simp : ¬((a :: t).isEmpty = true)),
    if_neg (by rw [h1]; simp : ¬(((a :: t).length == 1) = true))]

theorem mergeAI_err (mp : Option String) (u : Unit)
    (jsonParse : String → Option PyVal) (a : PyVal) (t : List PyVal)
    (h1 : ((a :: t).length == 1) = false) :
    mergeOpportunitiesWithAI mp (.error u) jsonParse (a :: t) = PyVal.list (a :: t) := by
  rw [mergeAI_reduce mp (.error u) jsonParse a t h1]
  rcases mp with _ | p
  · rfl
  · show (if p == "" then PyVal.list (a :: t) else PyVal.list (a :: t)) =
      PyVal.list (a :: t)
    split
    · rfl
    · rfl

theorem mergeAI_ok (p c : String) (jsonParse : String → Option PyVal)
    (a : PyVal) (t : List PyVal) (h1 : ((a :: t).length == 1) = false) :
    mergeOpportunitiesWithAI (some p) (.ok c) jsonParse (a :: t) =
      (if p == "" then PyVal.list (a :: t)
       else if c == "" then PyVal.list (a :: t)
       else match jsonParse c with
         | Option.none => PyVal.list (a :: t)
         | some parsed =>
           match parsed with
           | .dict d => dictGetDef d "instrumentation_opportunities" (.list [])
           | _ => PyVal.list (a :: t)) := by
  rw [mergeAI_reduce (some p) (.ok c) jsonParse a t h1]

/-- C7: for a list of more than one opportunity, if the completion call
raises, or its non-empty response fails to parse as JSON, or the response
is empty, `merge_opportunities_with_ai` returns the original list
unchanged (no exception escapes to the pipeline). -/
theorem C7_ai_merge_fallback (mergePrompt : Option String)
    (chatComplete : Except Unit String) (jsonParse : String → Option PyVal)
    (allOpps : List PyVal) (hlen : 1 < allOpps.length)
    (hfail : chatComplete = .error () ∨
      (∃ c, chatComplete = .ok c ∧ c ≠ "" ∧ jsonParse c = Option.none) ∨
      chatComplete = .ok "") :
    mergeOpportunitiesWithAI mergePrompt chatComplete jsonParse allOpps =
      .list allOpps := by
  rcases allOpps with _ | ⟨a, t⟩
  · simp at hlen
  · have h1 : ((a :: t).length == 1) = false := by
      simp only [List.length_cons] at hlen ⊢
      have h2 : t.length + 1 ≠ 1 := by omega
      simpa using h2
    rcases hfail with hf | ⟨c, hc, hcne, hcp⟩ | hf
    · subst hf
      exact mergeAI_err mergePrompt () jsonParse a t h1
    · subst hc
      rcases mergePrompt with _ | p
      · rw [mergeAI_reduce Option.none (.ok c) jsonParse a t h1]
      · rw [mergeAI_ok p c jsonParse a t h1]
        have hcb : (c == "") = false := by simpa using hcne
        rw [hcb, hcp]
        show (if p == "" then PyVal.list (a :: t) else PyVal.list (a :: t)) =
          PyVal.list (a :: t)
        split
        · rfl
        · rfl
    · subst hf
      rcases mergePrompt with _ | p
      · rw [mergeAI_reduce Option.none (.ok "") jsonParse a t h1]
      · rw [mergeAI_ok p "" jsonParse a t h1]
        show (if p == "" then PyVal.list (a :: t) else PyVal.list (a :: t)) =
          PyVal.list (a :: t)
        split
        · rfl
        · rfl

theorem C7_ai_merge_fallback_witness :
    (1 < ([PyVal.int 1, PyVal.int 2] : List PyVal).length) ∧
    mergeOpportunitiesWithAI (some "merge prompt") (.error ())
      (fun _ => Option.none) [PyVal.int 1, PyVal.int 2] =
      .list [PyVal.int 1, PyVal.int 2] :=
  ⟨by decide, C7_ai_merge_fallback (some "merge prompt") (.error ())
    (fun _ => Option.none) [PyVal.int 1, PyVal.int 2] (by decide) (Or.inl rfl)⟩

end BidDocs
